import Mathlib

/-!
Verification of the unordered-sql front end (tokenizer + parser + AST).

The source text is modelled as a `List Char`; spans are `(start, length)`
byte offsets exactly as in the Python code.  Character classification
follows Python's `str.isspace` / `str.isalpha` / `str.isalnum` on the
ASCII fragment (the grammar and every claim only involve ASCII input).

The Python tokenizer's peek queue is a pure cache over the deterministic
scanner `_search_next`, which never reads mutable state; the state of the
`Tokenizer` is therefore refined to the pair
`(start_position, end_idx_of_last_consumed_token)` and `peek(k)` becomes
the pure k-step iteration of the scanner.

The parser's recursive procedures are embedded as structurally recursive
functions on an explicit fuel parameter returning `Option`; running out of
fuel yields `none`.  Totality of the real parser corresponds to the
theorem that the chosen fuel `4 * length + 12` always suffices.  The
internal `UnknownTokenException` of `parser.py` is raised and caught
within a single function body in the source, so the embedding inlines the
`except` handlers at the `raise` sites (returning the recovery value
directly); no error value can escape a top-level entry point.
-/

set_option maxRecDepth 10000

/-! ## Character classification (ASCII fragment of the Python predicates) -/

def singleQuoteChar : Char := Char.ofNat 39

def doubleQuoteChar : Char := Char.ofNat 34

def backslashChar : Char := Char.ofNat 92

/-- Python `str.isspace` restricted to ASCII: space, tab, newline,
vertical tab, form feed, carriage return. -/
def pyIsSpace (c : Char) : Bool :=
  c = ' ' || c = '\t' || c = '\n' || c = Char.ofNat 11 || c = Char.ofNat 12 || c = '\r'

/-- Python `str.isalpha` restricted to ASCII letters. -/
def pyIsAlpha (c : Char) : Bool :=
  (65 ≤ c.toNat && c.toNat ≤ 90) || (97 ≤ c.toNat && c.toNat ≤ 122)

/-- The explicit digit test `"0" <= c <= "9"` used by the tokenizer. -/
def isDigitChar (c : Char) : Bool :=
  48 ≤ c.toNat && c.toNat ≤ 57

/-- Python `str.isalnum` restricted to ASCII (letters and digits). -/
def pyIsAlnum (c : Char) : Bool :=
  pyIsAlpha c || isDigitChar c

/-- ASCII lower-casing, as `str.lower` acts on ASCII letters. -/
def lowerChar (c : Char) : Char :=
  if 65 ≤ c.toNat && c.toNat ≤ 90 then Char.ofNat (c.toNat + 32) else c

def lowerStr (l : List Char) : List Char := l.map lowerChar

/-- Whitespace skipped by the tokenizer: `isspace` and not a newline. -/
def isSkipChar (c : Char) : Bool := pyIsSpace c && !(c = '\n')

/-- Continuation characters of a name token: alphanumeric or underscore. -/
def isNameCont (c : Char) : Bool := pyIsAlnum c || c = '_'

/-- Continuation characters of a number token: digits and dots. -/
def isNumberCont (c : Char) : Bool := isDigitChar c || c = '.'

/-- The character class of the operator regex in `tokenizer.py`:
`[!@#^&*-+=|<>/%.:]+`.  Inside a regex character class `*-+` is the
range from `*` (42) to `+` (43), so the class contains neither a literal
minus sign nor a tilde; this is reproduced faithfully here. -/
def isOpChar (c : Char) : Bool :=
  c = '!' || c = '@' || c = '#' || c = '^' || c = '&' || c = '*' || c = '+' ||
  c = '=' || c = '|' || c = '<' || c = '>' || c = '/' || c = '%' || c = '.' || c = ':'

/-! ## Structural scanning helpers

Each scanning loop of `_search_next` is expressed as a structurally
recursive function on the remaining character list, returning the number
of characters the loop consumes. -/

/-- Length of the maximal prefix whose characters satisfy `p`. -/
def takeWhileLen (p : Char → Bool) : List Char → Nat
  | [] => 0
  | c :: cs => if p c then takeWhileLen p cs + 1 else 0

theorem takeWhileLen_le (p : Char → Bool) (l : List Char) : takeWhileLen p l ≤ l.length := by
  induction l with
  | nil => simp [takeWhileLen]
  | cons c cs ih =>
    simp only [takeWhileLen, List.length_cons]
    split <;> omega

theorem takeWhileLen_all (p : Char → Bool) (l : List Char) :
    ∀ c ∈ l.take (takeWhileLen p l), p c = true := by
  induction l with
  | nil => simp
  | cons c cs ih =>
    simp only [takeWhileLen]
    split
    · intro d hd
      simp only [List.take_succ_cons, List.mem_cons] at hd
      rcases hd with h | h
      · subst h; assumption
      · exact ih d h
    · simp

/-- Offset one past the end of the regex match `(\\q|[^q])*q` started on
this list, or `none` when the regex does not match.  The greedy scan stops
at the first bare quote; when the end of text is reached without one, the
regex engine backtracks and the match ends just after the quote of the
last escaped-quote pair, which the `some 2` fallback reproduces. -/
def quotedScan (q : Char) : List Char → Option Nat
  | [] => none
  | [c] => if c = q then some 1 else none
  | c :: c2 :: cs2 =>
    if c = q then some 1
    else if c = backslashChar && c2 = q then
      match quotedScan q cs2 with
      | some k => some (k + 2)
      | none => some 2
    else
      match quotedScan q (c2 :: cs2) with
      | some k => some (k + 1)
      | none => none

theorem quotedScan_bounds_aux (q : Char) :
    ∀ n, ∀ l : List Char, l.length ≤ n →
      ∀ k, quotedScan q l = some k → 1 ≤ k ∧ k ≤ l.length := by
  intro n
  induction n with
  | zero =>
    intro l hl k h
    cases l with
    | nil => simp [quotedScan] at h
    | cons c cs => simp at hl
  | succ m ih =>
    intro l hl k h
    match l with
    | [] => simp [quotedScan] at h
    | [c] =>
      simp only [quotedScan] at h
      split at h
      · simp only [Option.some.injEq] at h; simp [← h]
      · simp at h
    | c :: c2 :: cs2 =>
      simp only [List.length_cons] at hl
      simp only [quotedScan, List.length_cons]
      simp only [quotedScan] at h
      split at h
      · simp only [Option.some.injEq] at h; omega
      · split at h
        · cases hq : quotedScan q cs2 with
          | some k2 =>
            rw [hq] at h; simp only [Option.some.injEq] at h
            have := ih cs2 (by omega) k2 hq
            omega
          | none => rw [hq] at h; simp only [Option.some.injEq] at h; omega
        · cases hq : quotedScan q (c2 :: cs2) with
          | some k2 =>
            rw [hq] at h; simp only [Option.some.injEq] at h
            have := ih (c2 :: cs2) (by simp; omega) k2 hq
            simp only [List.length_cons] at this
            omega
          | none => rw [hq] at h; simp at h

theorem quotedScan_bounds (q : Char) (l : List Char) :
    ∀ k, quotedScan q l = some k → 1 ≤ k ∧ k ≤ l.length :=
  quotedScan_bounds_aux q l.length l le_rfl

/-- Index of the first occurrence of `c`, as `re.search` locates the
newline ending a single-line comment. -/
def findChar (c : Char) : List Char → Option Nat
  | [] => none
  | x :: xs =>
    if x = c then some 0
    else
      match findChar c xs with
      | some k => some (k + 1)
      | none => none

theorem findChar_lt (c : Char) (l : List Char) :
    ∀ k, findChar c l = some k → k < l.length := by
  induction l with
  | nil => intro k h; simp [findChar] at h
  | cons x xs ih =>
    intro k h
    simp only [findChar] at h
    split at h
    · simp only [Option.some.injEq] at h; simp [← h]
    · cases hq : findChar c xs with
      | some k2 =>
        rw [hq] at h; simp only [Option.some.injEq] at h
        have := ih k2 hq
        simp only [List.length_cons]
        omega
      | none => rw [hq] at h; simp at h

/-- Offset of the first occurrence of the two-character sequence star-slash,
as the lazy regex of a block comment finds its closing delimiter. -/
def findStarSlash : List Char → Option Nat
  | [] => none
  | x :: xs =>
    if x = '*' && xs.headD ' ' = '/' && xs ≠ [] then some 0
    else
      match findStarSlash xs with
      | some k => some (k + 1)
      | none => none

theorem findStarSlash_bound (l : List Char) :
    ∀ k, findStarSlash l = some k → k + 2 ≤ l.length := by
  induction l with
  | nil => intro k h; simp [findStarSlash] at h
  | cons x xs ih =>
    intro k h
    simp only [findStarSlash] at h
    split at h
    · simp only [Option.some.injEq] at h
      rename_i hcond
      simp only [Bool.and_eq_true, decide_eq_true_eq] at hcond
      have : xs ≠ [] := hcond.2
      have : 1 ≤ xs.length := by
        cases xs with
        | nil => simp at this
        | cons _ _ => simp
      simp only [List.length_cons]
      omega
    · cases hq : findStarSlash xs with
      | some k2 =>
        rw [hq] at h; simp only [Option.some.injEq] at h
        have := ih k2 hq
        simp only [List.length_cons]
        omega
      | none => rw [hq] at h; simp at h

/-! ## Token model (`my_token.py`) -/

/-- Conversion from a string literal to the character-list text model. -/
def strT (s : String) : List Char := s.data

/-- `NameTokenType`: tokens starting with an alphabetic character. -/
inductive NameTokenType where
  | select | from_ | where_ | group | order | by_
  | insert | into | values_
  | delete
  | case_ | using_ | as_ | distinct
  | null | asc | desc | nulls | first | last | exists_
  | left | right | full | inner | outer | straight | cross | natural | join | on_
  | union | except_ | intersect
  | is_ | not_ | and_ | all_ | any_ | between | in_ | like | or_ | some_
  | nonKeyword
deriving DecidableEq, Repr

/-- `PunctuationTokenType`: entirely non-alphanumeric tokens. -/
inductive PunctuationTokenType where
  | dot
  | doubleColon
  | bitNot
  | leftShift | rightShift
  | multiply | divide | mod
  | plus | minus | bitAnd | bitOr | bitXor
  | equal | lessThan | greaterThan | lessThanOrEqual | greaterThanOrEqual | notEqual
  | semicolon | leftParen | rightParen | leftBracket | rightBracket | comma | newline
  | unknownOperator
deriving DecidableEq, Repr

/-- `SpecialTokenType`: strings, comments and the end-of-text sentinel. -/
inductive SpecialTokenType where
  | singleQuoteString | doubleQuoteString
  | singleLineComment | multiLineComment
  | endOfString
deriving DecidableEq, Repr

/-- `text_to_name_token`: lower-cased token text to `NameTokenType`;
unmapped text is an identifier (`NON_KEYWORD`). -/
def textToNameToken (l : List Char) : NameTokenType :=
  if l = strT "select" then .select
  else if l = strT "from" then .from_
  else if l = strT "where" then .where_
  else if l = strT "group" then .group
  else if l = strT "order" then .order
  else if l = strT "by" then .by_
  else if l = strT "insert" then .insert
  else if l = strT "into" then .into
  else if l = strT "values" then .values_
  else if l = strT "delete" then .delete
  else if l = strT "case" then .case_
  else if l = strT "using" then .using_
  else if l = strT "as" then .as_
  else if l = strT "distinct" then .distinct
  else if l = strT "null" then .null
  else if l = strT "asc" then .asc
  else if l = strT "desc" then .desc
  else if l = strT "nulls" then .nulls
  else if l = strT "first" then .first
  else if l = strT "last" then .last
  else if l = strT "exists" then .exists_
  else if l = strT "left" then .left
  else if l = strT "right" then .right
  else if l = strT "full" then .full
  else if l = strT "inner" then .inner
  else if l = strT "outer" then .outer
  else if l = strT "straight" then .straight
  else if l = strT "cross" then .cross
  else if l = strT "natural" then .natural
  else if l = strT "join" then .join
  else if l = strT "on" then .on_
  else if l = strT "union" then .union
  else if l = strT "except" then .except_
  else if l = strT "intersect" then .intersect
  else if l = strT "is" then .is_
  else if l = strT "not" then .not_
  else if l = strT "and" then .and_
  else if l = strT "all" then .all_
  else if l = strT "any" then .any_
  else if l = strT "between" then .between
  else if l = strT "in" then .in_
  else if l = strT "like" then .like
  else if l = strT "or" then .or_
  else if l = strT "some" then .some_
  else if l = strT " name" then .nonKeyword
  else .nonKeyword

/-- `text_to_punctuation_token`: exact token text to `PunctuationTokenType`;
unmapped text is `UNKNOWN_OPERATOR`. -/
def textToPunctuationToken (l : List Char) : PunctuationTokenType :=
  if l = strT "." then .dot
  else if l = strT "::" then .doubleColon
  else if l = strT "~" then .bitNot
  else if l = strT "<<" then .leftShift
  else if l = strT ">>" then .rightShift
  else if l = strT "*" then .multiply
  else if l = strT "/" then .divide
  else if l = strT "%" then .mod
  else if l = strT "+" then .plus
  else if l = strT "-" then .minus
  else if l = strT "&" then .bitAnd
  else if l = strT "|" then .bitOr
  else if l = strT "^" then .bitXor
  else if l = strT "=" then .equal
  else if l = strT "<" then .lessThan
  else if l = strT ">" then .greaterThan
  else if l = strT "<=" then .lessThanOrEqual
  else if l = strT ">=" then .greaterThanOrEqual
  else if l = strT "!=" then .notEqual
  else if l = strT ";" then .semicolon
  else if l = strT "(" then .leftParen
  else if l = strT ")" then .rightParen
  else if l = strT "[" then .leftBracket
  else if l = strT "]" then .rightBracket
  else if l = strT "," then .comma
  else if l = strT "\n" then .newline
  else if l = strT " unknown" then .unknownOperator
  else .unknownOperator

/-- `text_to_non_operators`: the single-character structural symbols that are
not subject to the maximal-munge operator rule. -/
def textToNonOperators (c : Char) : Option PunctuationTokenType :=
  if c = ';' then some .semicolon
  else if c = '(' then some .leftParen
  else if c = ')' then some .rightParen
  else if c = '[' then some .leftBracket
  else if c = ']' then some .rightBracket
  else if c = ',' then some .comma
  else if c = '\n' then some .newline
  else none

/-- `operator_to_precedence` restricted to `NameTokenType` keys
(`NOT` is commented out in the source: only binary operators). -/
def namePrecedence : NameTokenType → Option Nat
  | .is_ => some 7
  | .in_ => some 7
  | .like => some 7
  | .and_ => some 9
  | .or_ => some 10
  | _ => none

/-- `operator_to_precedence` restricted to `PunctuationTokenType` keys
(`BIT_NOT` is commented out in the source: only binary operators). -/
def punctuationPrecedence : PunctuationTokenType → Option Nat
  | .dot => some 1
  | .doubleColon => some 2
  | .leftShift => some 4
  | .rightShift => some 4
  | .multiply => some 5
  | .divide => some 5
  | .mod => some 5
  | .plus => some 6
  | .minus => some 6
  | .bitAnd => some 6
  | .bitOr => some 6
  | .bitXor => some 6
  | .equal => some 7
  | .lessThan => some 7
  | .greaterThan => some 7
  | .lessThanOrEqual => some 7
  | .greaterThanOrEqual => some 7
  | .notEqual => some 7
  | .comma => some 100
  | _ => none

/-- `comma_precedence = operator_to_precedence[COMMA]`, the maximum. -/
def commaPrecedence : Nat := 100

/-- `Token` with its `(start, length)` span, tagged as in `my_token.py`.
`hasEndSequence` is `False` exactly for an improperly terminated string or
block comment. -/
inductive Token where
  | name (start length : Nat) (type : NameTokenType)
  | number (start length : Nat)
  | punctuation (start length : Nat) (type : PunctuationTokenType)
  | special (start length : Nat) (type : SpecialTokenType) (hasEndSequence : Bool)
deriving DecidableEq, Repr

def Token.tstart : Token → Nat
  | .name s _ _ => s
  | .number s _ => s
  | .punctuation s _ _ => s
  | .special s _ _ _ => s

def Token.tlen : Token → Nat
  | .name _ n _ => n
  | .number _ n => n
  | .punctuation _ n _ => n
  | .special _ n _ _ => n

def Token.isEos : Token → Bool
  | .special _ _ .endOfString _ => true
  | _ => false

def Token.isNewlineTok : Token → Bool
  | .punctuation _ _ .newline => true
  | _ => false

def Token.isSemicolonTok : Token → Bool
  | .punctuation _ _ .semicolon => true
  | _ => false

def Token.isCommentTok : Token → Bool
  | .special _ _ .singleLineComment _ => true
  | .special _ _ .multiLineComment _ => true
  | _ => false

def Token.isRightParenTok : Token → Bool
  | .punctuation _ _ .rightParen => true
  | _ => false

def Token.isCommaTok : Token → Bool
  | .punctuation _ _ .comma => true
  | _ => false

def Token.isAsTok : Token → Bool
  | .name _ _ .as_ => true
  | _ => false

/-- The alias test of `parse_select`/`parse_from`: a non-keyword name or a
double-quoted string. -/
def Token.isAliasCapable : Token → Bool
  | .name _ _ .nonKeyword => true
  | .special _ _ .doubleQuoteString _ => true
  | _ => false

def Token.isNameOrPunct : Token → Bool
  | .name _ _ _ => true
  | .punctuation _ _ _ => true
  | _ => false

/-- The dictionary lookup `operator_to_precedence.get(binop.type, comma_precedence + 1)`
performed after the `isinstance` guards in `parse_expression`. -/
def operatorPrecedenceOf : Token → Nat
  | .name _ _ ty => (namePrecedence ty).getD (commaPrecedence + 1)
  | .punctuation _ _ ty => (punctuationPrecedence ty).getD (commaPrecedence + 1)
  | _ => commaPrecedence + 1

/-! ## The scanner `Tokenizer._search_next` -/

/-- The dispatch part of `_search_next`, entered once the whitespace loop
has stopped at `position`; returns the token and the new position (which
always equals the token's end offset). -/
def searchNextFrom (t : List Char) (position : Nat) : Token × Nat :=
  if position ≥ t.length then
    (Token.special position 0 SpecialTokenType.endOfString true, position)
  else
    let start := position
    let c := t.getD position ' '
    if pyIsAlpha c then
      let stop := position + 1 + takeWhileLen isNameCont (t.drop (position + 1))
      (Token.name start (stop - start) (textToNameToken (lowerStr ((t.drop start).take (stop - start)))), stop)
    else if isDigitChar c then
      let stop := position + 1 + takeWhileLen isNumberCont (t.drop (position + 1))
      (Token.number start (stop - start), stop)
    else if c = doubleQuoteChar then
      match quotedScan doubleQuoteChar (t.drop (position + 1)) with
      | none => (Token.special start (t.length - start) SpecialTokenType.doubleQuoteString false, t.length)
      | some k => (Token.special start (position + 1 + k - start) SpecialTokenType.doubleQuoteString true, position + 1 + k)
    else if c = singleQuoteChar then
      match quotedScan singleQuoteChar (t.drop (position + 1)) with
      | none => (Token.special start (t.length - start) SpecialTokenType.singleQuoteString false, t.length)
      | some k => (Token.special start (position + 1 + k - start) SpecialTokenType.singleQuoteString true, position + 1 + k)
    else if position + 1 < t.length ∧ c = '-' ∧ t.getD (position + 1) ' ' = '-' then
      match findChar '\n' (t.drop (position + 2)) with
      | none => (Token.special start (t.length - start) SpecialTokenType.singleLineComment true, t.length)
      | some k => (Token.special start (position + 2 + k - start) SpecialTokenType.singleLineComment true, position + 2 + k)
    else if position + 1 < t.length ∧ c = '/' ∧ t.getD (position + 1) ' ' = '*' then
      match findStarSlash (t.drop (position + 2)) with
      | none => (Token.special start (t.length - start) SpecialTokenType.multiLineComment false, t.length)
      | some k => (Token.special start (position + 2 + k + 2 - start) SpecialTokenType.multiLineComment true, position + 2 + k + 2)
    else
      match textToNonOperators c with
      | some ty => (Token.punctuation start 1 ty, position + 1)
      | none =>
        if isOpChar c then
          let k := takeWhileLen isOpChar (t.drop position)
          (Token.punctuation start k (textToPunctuationToken ((t.drop position).take k)), position + k)
        else
          (Token.punctuation start 1 PunctuationTokenType.unknownOperator, position + 1)

/-- `_search_next`: skip non-newline whitespace, then dispatch on the first
character. -/
def searchNext (t : List Char) (position : Nat) : Token × Nat :=
  searchNextFrom t (position + takeWhileLen isSkipChar (t.drop position))

example : searchNext (strT "select") 0 = (Token.name 0 6 .select, 6) := by decide
example : searchNext (strT "  x1_ ") 0 = (Token.name 2 3 .nonKeyword, 5) := by decide
example : searchNext (strT "3.4.2") 0 = (Token.number 0 5, 5) := by decide
example : searchNext (strT "<= 4") 0 = (Token.punctuation 0 2 .lessThanOrEqual, 2) := by decide
example : searchNext (strT "@@@ 2") 0 = (Token.punctuation 0 3 .unknownOperator, 3) := by decide
example : searchNext (strT "-") 0 = (Token.punctuation 0 1 .unknownOperator, 1) := by decide
example : searchNext (strT "~") 0 = (Token.punctuation 0 1 .unknownOperator, 1) := by decide
example : searchNext (strT "-- c\nx") 0 = (Token.special 0 4 .singleLineComment true, 4) := by decide
example : searchNext (strT "/* c */x") 0 = (Token.special 0 7 .multiLineComment true, 7) := by decide
example : searchNext (strT "/* c") 0 = (Token.special 0 4 .multiLineComment false, 4) := by decide
example : searchNext (strT "  ") 0 = (Token.special 2 0 .endOfString true, 2) := by decide
example : searchNext (strT "") 0 = (Token.special 0 0 .endOfString true, 0) := by decide

/-! ## Basic facts about the scanner -/

theorem getD_eq_headD_drop (l : List Char) (n : Nat) (d : Char) :
    l.getD n d = (l.drop n).headD d := by
  induction l generalizing n with
  | nil => cases n <;> simp [List.getD]
  | cons c cs ih =>
    cases n with
    | zero => simp [List.getD]
    | succ m => simp only [List.getD] at ih ⊢; simp [ih m]

theorem takeWhileLen_pos (p : Char → Bool) (l : List Char) (h : l ≠ [])
    (hp : p (l.headD ' ') = true) : 1 ≤ takeWhileLen p l := by
  cases l with
  | nil => simp at h
  | cons c cs =>
    simp only [List.headD_cons] at hp
    simp [takeWhileLen, hp]

theorem searchNextFrom_spec (t : List Char) (p : Nat) :
    (searchNextFrom t p).1.tstart = p ∧
    (searchNextFrom t p).2 = p + (searchNextFrom t p).1.tlen ∧
    (p ≤ t.length → (searchNextFrom t p).2 ≤ t.length) ∧
    ((searchNextFrom t p).1.isEos = true → (searchNextFrom t p).1.tlen = 0) ∧
    ((searchNextFrom t p).1.isEos = false →
      1 ≤ (searchNextFrom t p).1.tlen ∧ p < t.length) ∧
    ((searchNextFrom t p).1.isEos = true → t.length ≤ p) := by
  have hdl : ∀ m : Nat, (t.drop m).length = t.length - m := fun m => List.length_drop m t
  simp only [searchNextFrom]
  split
  · next hp =>
    refine ⟨rfl, ?_, ?_, ?_, ?_, ?_⟩ <;>
      simp [Token.tstart, Token.tlen, Token.isEos] <;> omega
  · next hp =>
    have hplt : p < t.length := by omega
    split
    · -- name token
      next =>
      have hb := takeWhileLen_le isNameCont (t.drop (p + 1))
      rw [hdl] at hb
      refine ⟨rfl, ?_, ?_, ?_, ?_, ?_⟩ <;>
        simp [Token.tstart, Token.tlen, Token.isEos] <;> omega
    · split
      · -- number token
        next =>
        have hb := takeWhileLen_le isNumberCont (t.drop (p + 1))
        rw [hdl] at hb
        refine ⟨rfl, ?_, ?_, ?_, ?_, ?_⟩ <;>
          simp [Token.tstart, Token.tlen, Token.isEos] <;> omega
      · split
        · -- double-quoted string
          split
          · next =>
            refine ⟨rfl, ?_, ?_, ?_, ?_, ?_⟩ <;>
              simp [Token.tstart, Token.tlen, Token.isEos] <;> omega
          · next k hk =>
            have hb := quotedScan_bounds doubleQuoteChar (t.drop (p + 1)) k hk
            rw [hdl] at hb
            refine ⟨rfl, ?_, ?_, ?_, ?_, ?_⟩ <;>
              simp [Token.tstart, Token.tlen, Token.isEos] <;> omega
        · split
          · -- single-quoted string
            split
            · next =>
              refine ⟨rfl, ?_, ?_, ?_, ?_, ?_⟩ <;>
                simp [Token.tstart, Token.tlen, Token.isEos] <;> omega
            · next k hk =>
              have hb := quotedScan_bounds singleQuoteChar (t.drop (p + 1)) k hk
              rw [hdl] at hb
              refine ⟨rfl, ?_, ?_, ?_, ?_, ?_⟩ <;>
                simp [Token.tstart, Token.tlen, Token.isEos] <;> omega
          · split
            · -- single-line comment
              next hcond =>
              split
              · next =>
                refine ⟨rfl, ?_, ?_, ?_, ?_, ?_⟩ <;>
                  simp [Token.tstart, Token.tlen, Token.isEos] <;> omega
              · next k hk =>
                have hb := findChar_lt '\n' (t.drop (p + 2)) k hk
                rw [hdl] at hb
                obtain ⟨h1, -, -⟩ := hcond
                refine ⟨rfl, ?_, ?_, ?_, ?_, ?_⟩ <;>
                  simp [Token.tstart, Token.tlen, Token.isEos] <;> omega
            · split
              · -- multi-line comment
                next hcond =>
                split
                · next =>
                  refine ⟨rfl, ?_, ?_, ?_, ?_, ?_⟩ <;>
                    simp [Token.tstart, Token.tlen, Token.isEos] <;> omega
                · next k hk =>
                  have hb := findStarSlash_bound (t.drop (p + 2)) k hk
                  rw [hdl] at hb
                  obtain ⟨h1, -, -⟩ := hcond
                  refine ⟨rfl, ?_, ?_, ?_, ?_, ?_⟩ <;>
                    simp [Token.tstart, Token.tlen, Token.isEos] <;> omega
              · split
                · -- structural symbol
                  next =>
                  refine ⟨rfl, ?_, ?_, ?_, ?_, ?_⟩ <;>
                    simp [Token.tstart, Token.tlen, Token.isEos] <;> omega
                · split
                  · -- operator run
                    next hop =>
                    have hb := takeWhileLen_le isOpChar (t.drop p)
                    rw [hdl] at hb
                    have hne : t.drop p ≠ [] := by
                      intro hcon
                      have := congrArg List.length hcon
                      rw [hdl] at this
                      simp at this
                      omega
                    have hpos : 1 ≤ takeWhileLen isOpChar (t.drop p) := by
                      apply takeWhileLen_pos _ _ hne
                      rw [← getD_eq_headD_drop]
                      exact hop
                    refine ⟨rfl, ?_, ?_, ?_, ?_, ?_⟩ <;>
                      simp [Token.tstart, Token.tlen, Token.isEos] <;> omega
                  · -- unknown single character
                    refine ⟨rfl, ?_, ?_, ?_, ?_, ?_⟩ <;>
                      simp [Token.tstart, Token.tlen, Token.isEos] <;> omega

theorem searchNext_spec (t : List Char) (pos : Nat) :
    pos ≤ (searchNext t pos).1.tstart ∧
    (searchNext t pos).2 = (searchNext t pos).1.tstart + (searchNext t pos).1.tlen ∧
    (pos ≤ t.length → (searchNext t pos).2 ≤ t.length) ∧
    ((searchNext t pos).1.isEos = true → (searchNext t pos).1.tlen = 0) ∧
    ((searchNext t pos).1.isEos = false →
      1 ≤ (searchNext t pos).1.tlen ∧ (searchNext t pos).1.tstart < t.length) ∧
    ((searchNext t pos).1.isEos = true → t.length ≤ (searchNext t pos).1.tstart) ∧
    (searchNext t pos).1.tstart = pos + takeWhileLen isSkipChar (t.drop pos) := by
  have hskip := takeWhileLen_le isSkipChar (t.drop pos)
  rw [List.length_drop] at hskip
  have h := searchNextFrom_spec t (pos + takeWhileLen isSkipChar (t.drop pos))
  unfold searchNext
  obtain ⟨h1, h2, h3, h4, h5, h6⟩ := h
  refine ⟨by omega, by rw [h2, h1], fun hle => h3 (by omega), h4,
    fun he => ⟨(h5 he).1, by have := (h5 he).2; omega⟩,
    fun he => by have := h6 he; omega, h1⟩

/-! ## Tokenizer state

`consume` and `peek` of `tokenizer.py` maintain a queue that caches the
results of the pure scanner `_search_next`; since `_search_next` reads only
the immutable text, `peek(k)` equals the k-th iterate of the scanner and
`consume` advances `start_position` to the end of the returned token, so
the observable state is `(start_position, end_idx_of_last_consumed_token)`. -/

/-- Tokenizer state: current position and the end index of the last
consumed token (`-1` before anything is consumed). -/
structure PS where
  pos : Nat
  lastEnd : Int
deriving DecidableEq, Repr

/-- `peek(1)`: the next unconsumed token. -/
def peek1 (t : List Char) (pos : Nat) : Token := (searchNext t pos).1

/-- `peek(2)`: the token after the next one. -/
def peek2 (t : List Char) (pos : Nat) : Token := (searchNext t (searchNext t pos).2).1

/-- `consume()`: advance past the next token, recording its end index. -/
def consumePS (t : List Char) (s : PS) : PS :=
  ⟨(searchNext t s.pos).2,
   (((searchNext t s.pos).1.tstart : Int) + (searchNext t s.pos).1.tlen)⟩

theorem peek2_eq_peek1_consume (t : List Char) (s : PS) :
    peek2 t s.pos = peek1 t (consumePS t s).pos := rfl

/-- Well-formedness of the tokenizer state on a given text. -/
def goodPS (t : List Char) (s : PS) : Prop :=
  s.lastEnd ≤ (s.pos : Int) ∧ s.pos ≤ t.length

/-- Relation between a state and any state reached from it by consuming
zero or more tokens: the position and last-consumed-end only move right,
and if anything was consumed then the first consumed token was the one
peeked at the initial position, so its start bounds the new last end. -/
def Walked (t : List Char) (s s' : PS) : Prop :=
  s.pos ≤ s'.pos ∧ s.lastEnd ≤ s'.lastEnd ∧
  (s.pos < s'.pos → ((peek1 t s.pos).tstart : Int) ≤ s'.lastEnd)

theorem Walked.selfPS (t : List Char) (s : PS) : Walked t s s :=
  ⟨le_refl _, le_refl _, fun h => absurd h (lt_irrefl _)⟩

theorem Walked.transPS {t : List Char} {a b c : PS}
    (h1 : Walked t a b) (h2 : Walked t b c) : Walked t a c := by
  obtain ⟨p1, l1, f1⟩ := h1
  obtain ⟨p2, l2, f2⟩ := h2
  refine ⟨le_trans p1 p2, le_trans l1 l2, fun hlt => ?_⟩
  rcases lt_or_eq_of_le p1 with h | h
  · exact le_trans (f1 h) l2
  · rw [h]
    exact f2 (by omega)

theorem peek1_start_ge (t : List Char) (pos : Nat) : pos ≤ (peek1 t pos).tstart :=
  (searchNext_spec t pos).1

theorem consume_spec (t : List Char) (s : PS) (hg : goodPS t s) :
    goodPS t (consumePS t s) ∧ Walked t s (consumePS t s) ∧
    ((peek1 t s.pos).isEos = false → s.pos < (consumePS t s).pos) ∧
    (consumePS t s).lastEnd = ((consumePS t s).pos : Int) := by
  obtain ⟨h1, h2, h3, h4, h5, h6, h7⟩ := searchNext_spec t s.pos
  obtain ⟨hg1, hg2⟩ := hg
  have hpos : (consumePS t s).pos = (searchNext t s.pos).1.tstart + (searchNext t s.pos).1.tlen := by
    simp [consumePS, h2]
  have hle : (consumePS t s).lastEnd = ((consumePS t s).pos : Int) := by
    simp [consumePS, h2]
  have hlen : (consumePS t s).pos ≤ t.length := by
    rw [hpos, ← h2]; exact h3 hg2
  refine ⟨⟨by omega, hlen⟩, ⟨by omega, ?_, fun _ => ?_⟩, fun he => ?_, hle⟩
  · rw [hle]
    have : s.pos ≤ (consumePS t s).pos := by omega
    omega
  · rw [hle]
    have : (peek1 t s.pos).tstart ≤ (consumePS t s).pos := by
      rw [hpos]; exact Nat.le_add_right _ _
    exact_mod_cast this
  · have := h5 he
    rw [hpos]
    omega

/-! ## AST model (`my_ast.py`) -/

/-- `Expression`: the expression variants of `my_ast.py`. -/
inductive Expression where
  | value (token : Token)
  | paren (leftParenTok : Token) (expr : Expression) (rightParenTok : Option Token)
  | binary (left : Expression) (operator : Token) (right : Expression)
  | placeholder (placeholderText : String)
deriving DecidableEq, Repr

def Expression.isPlaceholderE : Expression → Bool
  | .placeholder _ => true
  | _ => false

/-- `SelectField`: one comma-separated entry of a SELECT clause. -/
structure SelectField where
  expression : Expression
  aliasName : Option Token := none
deriving DecidableEq, Repr

/-- `SelectClause`: one SELECT keyword with its fields. -/
structure SelectClause where
  fields : List SelectField
deriving DecidableEq, Repr

/-- `FromField`: one comma-separated entry of a FROM clause. -/
structure FromField where
  tableName : Expression
  aliasName : Option Token := none
deriving DecidableEq, Repr

/-- `FromClause`: one FROM keyword with its fields. -/
structure FromClause where
  fields : List FromField
deriving DecidableEq, Repr

/-- `WhereClause`: one WHERE keyword with its expression. -/
structure WhereClause where
  expression : Expression
deriving DecidableEq, Repr

/-- `UnknownSequence`: a span of statement-level tokens the parser could
not attribute to any clause, with the first offending token. -/
structure UnknownSequence where
  start : Nat
  length : Int
  firstToken : Token
deriving DecidableEq, Repr

/-- `Statement`: span plus the clause, comment and unknown lists. -/
structure Statement where
  start : Nat
  length : Int
  selects : List SelectClause := []
  froms : List FromClause := []
  wheres : List WhereClause := []
  comments : List Token := []
  unknowns : List UnknownSequence := []
deriving DecidableEq, Repr

/-! ## Lossless lexing (the token stream partitions the text) -/

/-- The stream of (whitespace gap, token text) pairs produced by repeatedly
running the scanner from a position until the end-of-text token, with a fuel
bound (one unit per token; `lexChunks` below supplies enough). -/
def lexChunksF (t : List Char) : Nat → Nat → List (List Char × List Char)
  | 0, _ => []
  | fuel+1, pos =>
    let r := searchNext t pos
    if r.1.isEos = true then
      [((t.drop pos).take (r.1.tstart - pos), [])]
    else
      ((t.drop pos).take (r.1.tstart - pos), (t.drop r.1.tstart).take r.1.tlen) ::
        lexChunksF t fuel r.2

/-- The complete gap/token decomposition of the text from a position. -/
def lexChunks (t : List Char) (pos : Nat) : List (List Char × List Char) :=
  lexChunksF t (t.length + 1 - pos) pos

theorem lexChunksF_join (t : List Char) :
    ∀ n pos, t.length + 1 - pos ≤ n →
      ((lexChunksF t n pos).map fun ch => ch.1 ++ ch.2).flatten = t.drop pos := by
  intro n
  induction n with
  | zero =>
    intro pos hn
    have hge : t.length ≤ pos := by omega
    have hdrop : t.drop pos = [] := List.drop_eq_nil_of_le hge
    simp [lexChunksF, hdrop]
  | succ m ih =>
    intro pos hn
    obtain ⟨h1, h2, h3, h4, h5, h6, h7⟩ := searchNext_spec t pos
    rw [lexChunksF]
    cases heos : (searchNext t pos).1.isEos with
    | true =>
      simp only [if_pos]
      have hts := h6 heos
      have hlen : (t.drop pos).length ≤ (searchNext t pos).1.tstart - pos := by
        rw [List.length_drop]; omega
      simp [List.take_of_length_le hlen]
    | false =>
      simp only [Bool.false_eq_true, if_false]
      have hprog := h5 heos
      have hrec := ih (searchNext t pos).2 (by omega)
      simp only [List.map_cons, List.flatten_cons, hrec]
      have hstart : pos ≤ (searchNext t pos).1.tstart := h1
      have hgap : (t.drop pos).take ((searchNext t pos).1.tstart - pos) ++
          t.drop (searchNext t pos).1.tstart = t.drop pos := by
        have hta := List.take_append_drop ((searchNext t pos).1.tstart - pos) (t.drop pos)
        rw [List.drop_drop] at hta
        have hx : pos + ((searchNext t pos).1.tstart - pos) = (searchNext t pos).1.tstart := by
          omega
        rw [hx] at hta
        exact hta
      have htok : (t.drop (searchNext t pos).1.tstart).take (searchNext t pos).1.tlen ++
          t.drop (searchNext t pos).2 = t.drop (searchNext t pos).1.tstart := by
        have hta := List.take_append_drop (searchNext t pos).1.tlen (t.drop (searchNext t pos).1.tstart)
        rw [List.drop_drop] at hta
        rw [h2]
        exact hta
      rw [List.append_assoc, htok, hgap]

theorem lexChunksF_gaps_white (t : List Char) :
    ∀ n pos, ∀ ch ∈ lexChunksF t n pos, ∀ c ∈ ch.1, isSkipChar c = true := by
  intro n
  induction n with
  | zero =>
    intro pos ch hch c hc
    simp [lexChunksF] at hch
  | succ m ih =>
    intro pos ch hch c hc
    obtain ⟨h1, h2, h3, h4, h5, h6, h7⟩ := searchNext_spec t pos
    rw [lexChunksF] at hch
    cases heos : (searchNext t pos).1.isEos with
    | true =>
      rw [heos] at hch
      simp only [if_pos, List.mem_singleton] at hch
      subst hch
      simp only at hc
      rw [h7] at hc
      have hx : pos + takeWhileLen isSkipChar (t.drop pos) - pos =
          takeWhileLen isSkipChar (t.drop pos) := by omega
      rw [hx] at hc
      exact takeWhileLen_all isSkipChar (t.drop pos) c hc
    | false =>
      rw [heos] at hch
      simp only [Bool.false_eq_true, if_false, List.mem_cons] at hch
      rcases hch with hch | hch
      · subst hch
        simp only at hc
        have hx : (searchNext t pos).1.tstart - pos = takeWhileLen isSkipChar (t.drop pos) := by
          rw [h7]; omega
        rw [hx] at hc
        exact takeWhileLen_all isSkipChar (t.drop pos) c hc
      · exact ih (searchNext t pos).2 ch hch c hc

/-! ## Parser (`parser.py`)

Each procedure takes the text, the state it reads, and a fuel argument;
`none` means the fuel ran out (which the sufficiency theorem below rules
out for the fuel used by `parseAll`).  The `try/except UnknownTokenException`
blocks of the source are confined to single function bodies, so each
`raise` site is embedded as directly producing the value the enclosing
handler would produce. -/

/-- Record a comment on the enclosing statement
(`parent_statement.comments.append(token)`). -/
def addComment (st : Statement) (tok : Token) : Statement :=
  {st with comments := st.comments ++ [tok]}

/-- `get_next_standard_token`: skip comments (recording them) and single
newlines; on a double newline return the first newline unconsumed.  The
returned token is always the peek of the returned state. -/
def getNextStandardToken (t : List Char) (st : Statement) (s : PS) :
    Nat → Option (Token × Statement × PS)
  | 0 => none
  | fuel+1 =>
    let token := peek1 t s.pos
    if token.isNewlineTok then
      let token2 := peek2 t s.pos
      if token2.isNewlineTok then some (token, st, s)
      else
        let s1 := consumePS t s
        if token2.isCommentTok then
          getNextStandardToken t (addComment st token2) (consumePS t s1) fuel
        else some (token2, st, s1)
    else if token.isCommentTok then
      getNextStandardToken t (addComment st token) (consumePS t s) fuel
    else some (token, st, s)

/-- `consume_newline_semicolons`: skip newline and semicolon tokens in
front of a statement; the returned token is untouched. -/
def consumeNewlineSemicolons (t : List Char) (s : PS) : Nat → Option (Token × PS)
  | 0 => none
  | fuel+1 =>
    let token := peek1 t s.pos
    if token.isNewlineTok || token.isSemicolonTok then
      consumeNewlineSemicolons t (consumePS t s) fuel
    else some (token, s)

mutual

/-- `parse_non_binary_expression` up to fetching the standard token; the
body of its `try` block is `pnbLoop`. -/
def parseNonBinaryExpression (t : List Char) (st : Statement) (s : PS) :
    Nat → Option (Expression × Statement × PS)
  | 0 => none
  | fuel+1 =>
    match getNextStandardToken t st s fuel with
    | none => none
    | some (token, st1, s1) => pnbLoop t token st1 s1 fuel

/-- The `while True` body of `parse_non_binary_expression`.  As in the
source, the comment branches do not refetch `token` before continuing
(they are unreachable because `get_next_standard_token` never returns a
comment); every `raise UnknownTokenException` becomes the placeholder
result the handler produces. -/
def pnbLoop (t : List Char) (token : Token) (st : Statement) (s : PS) :
    Nat → Option (Expression × Statement × PS)
  | 0 => none
  | fuel+1 =>
    match token with
    | .name _ _ ty =>
      if ty = .nonKeyword then some (.value token, st, consumePS t s)
      else some (.placeholder "1", st, s)
    | .number _ _ => some (.value token, st, consumePS t s)
    | .punctuation _ _ ty =>
      if ty = .leftParen then
        match parseExpression t commaPrecedence st (consumePS t s) fuel with
        | none => none
        | some (inner, st2, s2) =>
          match getNextStandardToken t st2 s2 fuel with
          | none => none
          | some (token2, st3, s3) =>
            if token2.isRightParenTok then
              some (.paren token inner (some token2), st3, consumePS t s3)
            else
              some (.paren token inner none, st3, s3)
      else some (.placeholder "1", st, s)
    | .special _ _ ty _ =>
      if ty = .singleQuoteString then some (.value token, st, consumePS t s)
      else if ty = .doubleQuoteString then some (.value token, st, consumePS t s)
      else if ty = .singleLineComment then
        pnbLoop t token (addComment st token) (consumePS t s) fuel
      else if ty = .multiLineComment then
        pnbLoop t token (addComment st token) (consumePS t s) fuel
      else some (.placeholder "1", st, s)

/-- `parse_expression`: parse a leaf, then climb operators within the
precedence ceiling. -/
def parseExpression (t : List Char) (prec : Nat) (st : Statement) (s : PS) :
    Nat → Option (Expression × Statement × PS)
  | 0 => none
  | fuel+1 =>
    match parseNonBinaryExpression t st s fuel with
    | none => none
    | some (e, st1, s1) =>
      if e.isPlaceholderE then some (e, st1, s1)
      else parseExpressionLoop t prec e st1 s1 fuel

/-- The operator-climbing `while True` loop of `parse_expression`. -/
def parseExpressionLoop (t : List Char) (prec : Nat) (acc : Expression)
    (st : Statement) (s : PS) : Nat → Option (Expression × Statement × PS)
  | 0 => none
  | fuel+1 =>
    match getNextStandardToken t st s fuel with
    | none => none
    | some (binop, st1, s1) =>
      if binop.isNameOrPunct then
        if operatorPrecedenceOf binop > prec then some (acc, st1, s1)
        else
          match parseExpression t (operatorPrecedenceOf binop - 1) st1 (consumePS t s1) fuel with
          | none => none
          | some (rhs, st2, s2) =>
            if rhs.isPlaceholderE then some (.binary acc binop rhs, st2, s2)
            else parseExpressionLoop t prec (.binary acc binop rhs) st2 s2 fuel
      else some (acc, st1, s1)

end

/-- The field loop of `parse_select`: expression, optional `AS`, optional
alias, then a comma to continue. -/
def parseSelectLoop (t : List Char) (st : Statement) (s : PS) :
    Nat → Option (List SelectField × Statement × PS)
  | 0 => none
  | fuel+1 =>
    match parseExpression t (commaPrecedence - 1) st s fuel with
    | none => none
    | some (expression, st1, s1) =>
      match getNextStandardToken t st1 s1 fuel with
      | none => none
      | some (token, st2, s2) =>
        match (if token.isAsTok then getNextStandardToken t st2 (consumePS t s2) fuel
               else some (token, st2, s2)) with
        | none => none
        | some (token, st3, s3) =>
          if token.isAliasCapable then
            match getNextStandardToken t st3 (consumePS t s3) fuel with
            | none => none
            | some (token2, st4, s4) =>
              if token2.isCommaTok then
                match parseSelectLoop t st4 (consumePS t s4) fuel with
                | none => none
                | some (fields, st5, s5) =>
                  some (⟨expression, some token⟩ :: fields, st5, s5)
              else some ([⟨expression, some token⟩], st4, s4)
          else
            if token.isCommaTok then
              match parseSelectLoop t st3 (consumePS t s3) fuel with
              | none => none
              | some (fields, st4, s4) => some (⟨expression, none⟩ :: fields, st4, s4)
            else some ([⟨expression, none⟩], st3, s3)

/-- `parse_select`: consume the SELECT keyword, then run the field loop. -/
def parseSelect (t : List Char) (st : Statement) (s : PS) :
    Nat → Option (SelectClause × Statement × PS)
  | 0 => none
  | fuel+1 =>
    match parseSelectLoop t st (consumePS t s) fuel with
    | none => none
    | some (fields, st1, s1) => some (⟨fields⟩, st1, s1)

/-- The field loop of `parse_from`; identical to the SELECT loop except
that the expression ceiling is the precedence of `.` (dot-chains only)
and the fields are `FromField`s. -/
def parseFromLoop (t : List Char) (st : Statement) (s : PS) :
    Nat → Option (List FromField × Statement × PS)
  | 0 => none
  | fuel+1 =>
    match parseExpression t ((punctuationPrecedence .dot).getD 0) st s fuel with
    | none => none
    | some (expression, st1, s1) =>
      match getNextStandardToken t st1 s1 fuel with
      | none => none
      | some (token, st2, s2) =>
        match (if token.isAsTok then getNextStandardToken t st2 (consumePS t s2) fuel
               else some (token, st2, s2)) with
        | none => none
        | some (token, st3, s3) =>
          if token.isAliasCapable then
            match getNextStandardToken t st3 (consumePS t s3) fuel with
            | none => none
            | some (token2, st4, s4) =>
              if token2.isCommaTok then
                match parseFromLoop t st4 (consumePS t s4) fuel with
                | none => none
                | some (fields, st5, s5) =>
                  some (⟨expression, some token⟩ :: fields, st5, s5)
              else some ([⟨expression, some token⟩], st4, s4)
          else
            if token.isCommaTok then
              match parseFromLoop t st3 (consumePS t s3) fuel with
              | none => none
              | some (fields, st4, s4) => some (⟨expression, none⟩ :: fields, st4, s4)
            else some ([⟨expression, none⟩], st3, s3)

/-- `parse_from`: consume the FROM keyword, then run the field loop. -/
def parseFrom (t : List Char) (st : Statement) (s : PS) :
    Nat → Option (FromClause × Statement × PS)
  | 0 => none
  | fuel+1 =>
    match parseFromLoop t st (consumePS t s) fuel with
    | none => none
    | some (fields, st1, s1) => some (⟨fields⟩, st1, s1)

/-- `parse_where`: consume the WHERE keyword and parse one expression. -/
def parseWhere (t : List Char) (st : Statement) (s : PS) :
    Nat → Option (WhereClause × Statement × PS)
  | 0 => none
  | fuel+1 =>
    match parseExpression t (commaPrecedence - 1) st (consumePS t s) fuel with
    | none => none
    | some (expression, st1, s1) => some (⟨expression⟩, st1, s1)

/-- Update the last `UnknownSequence` so its span ends at the given
offset (`ret.unknowns[-1].length = token.start + token.length - start`). -/
def extendLast : List UnknownSequence → Int → List UnknownSequence
  | [], _ => []
  | [u], e => [{u with length := e - u.start}]
  | u :: v :: rest, e => u :: extendLast (v :: rest) e

/-- The `except UnknownTokenException` handler of `parse_statement`:
start a new unknown run or extend the current one. -/
def recoveryStep (ret : Statement) (prevKnown : Bool) (token : Token) : Statement :=
  if prevKnown then
    {ret with unknowns := ret.unknowns ++ [⟨token.tstart, (token.tlen : Int), token⟩]}
  else
    {ret with unknowns := extendLast ret.unknowns ((token.tstart : Int) + token.tlen)}

/-- The `while True` dispatch loop of `parse_statement`. -/
def parseStatementLoop (t : List Char) (prevKnown : Bool) (ret : Statement) (s : PS) :
    Nat → Option (Statement × PS)
  | 0 => none
  | fuel+1 =>
    match getNextStandardToken t ret s fuel with
    | none => none
    | some (token, ret1, s1) =>
      match token with
      | .name _ _ ty =>
        if ty = .select then
          match parseSelect t ret1 s1 fuel with
          | none => none
          | some (c, ret2, s2) =>
            parseStatementLoop t true {ret2 with selects := ret2.selects ++ [c]} s2 fuel
        else if ty = .from_ then
          match parseFrom t ret1 s1 fuel with
          | none => none
          | some (c, ret2, s2) =>
            parseStatementLoop t true {ret2 with froms := ret2.froms ++ [c]} s2 fuel
        else if ty = .where_ then
          match parseWhere t ret1 s1 fuel with
          | none => none
          | some (c, ret2, s2) =>
            parseStatementLoop t true {ret2 with wheres := ret2.wheres ++ [c]} s2 fuel
        else
          parseStatementLoop t false (recoveryStep ret1 prevKnown token) (consumePS t s1) fuel
      | .punctuation _ _ ty =>
        if ty = .semicolon then
          some ({ret1 with length := s1.lastEnd - ret1.start}, consumePS t s1)
        else if ty = .newline then
          -- a newline here means a double newline is waiting to be consumed
          some ({ret1 with length := s1.lastEnd - ret1.start}, consumePS t (consumePS t s1))
        else
          parseStatementLoop t false (recoveryStep ret1 prevKnown token) (consumePS t s1) fuel
      | .special _ _ ty _ =>
        if ty = .endOfString then
          some ({ret1 with length := s1.lastEnd - ret1.start}, s1)
        else
          parseStatementLoop t false (recoveryStep ret1 prevKnown token) (consumePS t s1) fuel
      | .number _ _ =>
        parseStatementLoop t false (recoveryStep ret1 prevKnown token) (consumePS t s1) fuel

/-- `parse_statement`: create the statement at the peeked token and run
the dispatch loop. -/
def parseStatement (t : List Char) (s : PS) : Nat → Option (Statement × PS)
  | 0 => none
  | fuel+1 =>
    let token := peek1 t s.pos
    parseStatementLoop t true ⟨token.tstart, (token.tlen : Int), [], [], [], [], []⟩ s fuel

/-- The `while True` loop of `parse_all`. -/
def parseAllLoop (t : List Char) (acc : List Statement) (s : PS) :
    Nat → Option (List Statement × PS)
  | 0 => none
  | fuel+1 =>
    match consumeNewlineSemicolons t s fuel with
    | none => none
    | some (token, s1) =>
      if token.isEos then some (acc, s1)
      else
        match parseStatement t s1 fuel with
        | none => none
        | some (stmt, s2) => parseAllLoop t (acc ++ [stmt]) s2 fuel

/-- The fuel given to `parse_all`; the sufficiency theorem shows it always
suffices. -/
def parseFuel (t : List Char) : Nat := 4 * t.length + 12

/-- `Parser(text, 0).parse_all()`. -/
def parseAll (t : List Char) : Option (List Statement) :=
  match parseAllLoop t [] ⟨0, -1⟩ (parseFuel t) with
  | none => none
  | some (stmts, _) => some stmts

/-! ## Token classifier facts -/

theorem isEos_false_of_newline (tok : Token) (h : tok.isNewlineTok = true) :
    tok.isEos = false := by
  cases tok with
  | punctuation a b ty => simp [Token.isEos]
  | name a b ty => simp [Token.isNewlineTok] at h
  | number a b => simp [Token.isNewlineTok] at h
  | special a b ty he => simp [Token.isNewlineTok] at h

theorem isEos_false_of_comment (tok : Token) (h : tok.isCommentTok = true) :
    tok.isEos = false := by
  cases tok with
  | punctuation a b ty => simp [Token.isCommentTok] at h
  | name a b ty => simp [Token.isCommentTok] at h
  | number a b => simp [Token.isCommentTok] at h
  | special a b ty he => cases ty <;> simp_all [Token.isCommentTok, Token.isEos]

theorem isComment_false_of_newline (tok : Token) (h : tok.isNewlineTok = true) :
    tok.isCommentTok = false := by
  cases tok with
  | punctuation a b ty => simp [Token.isCommentTok]
  | name a b ty => simp [Token.isNewlineTok] at h
  | number a b => simp [Token.isNewlineTok] at h
  | special a b ty he => simp [Token.isNewlineTok] at h

theorem isEos_false_of_semicolon (tok : Token) (h : tok.isSemicolonTok = true) :
    tok.isEos = false := by
  cases tok with
  | punctuation a b ty => simp [Token.isEos]
  | name a b ty => simp [Token.isSemicolonTok] at h
  | number a b => simp [Token.isSemicolonTok] at h
  | special a b ty he => simp [Token.isSemicolonTok] at h

/-! ## Statement-threading facts -/

/-- Relation between the statement passed into a helper and the statement
it returns: only the comment list may change. -/
def StOnlyComments (a b : Statement) : Prop :=
  b.start = a.start ∧ b.length = a.length ∧ b.selects = a.selects ∧
  b.froms = a.froms ∧ b.wheres = a.wheres ∧ b.unknowns = a.unknowns

theorem StOnlyComments.selfSt (a : Statement) : StOnlyComments a a :=
  ⟨Eq.refl _, Eq.refl _, Eq.refl _, Eq.refl _, Eq.refl _, Eq.refl _⟩

theorem StOnlyComments.transSt {a b c : Statement}
    (h1 : StOnlyComments a b) (h2 : StOnlyComments b c) : StOnlyComments a c := by
  obtain ⟨x1, x2, x3, x4, x5, x6⟩ := h1
  obtain ⟨y1, y2, y3, y4, y5, y6⟩ := h2
  exact ⟨y1.trans x1, y2.trans x2, y3.trans x3, y4.trans x4, y5.trans x5, y6.trans x6⟩

theorem addComment_onlyComments (st : Statement) (tok : Token) :
    StOnlyComments st (addComment st tok) := by
  simp [addComment, StOnlyComments]

/-! ## Spec of the standard-token helpers -/

theorem gnst_spec : ∀ (fuel : Nat) (t : List Char) (st : Statement) (s : PS)
    (tok : Token) (st' : Statement) (s' : PS),
    goodPS t s → getNextStandardToken t st s fuel = some (tok, st', s') →
    goodPS t s' ∧ Walked t s s' ∧ tok = peek1 t s'.pos ∧
    tok.isCommentTok = false ∧ StOnlyComments st st' := by
  intro fuel
  induction fuel with
  | zero =>
    intro t st s tok st' s' hg h
    simp [getNextStandardToken] at h
  | succ n ih =>
    intro t st s tok st' s' hg h
    simp only [getNextStandardToken] at h
    by_cases h1 : (peek1 t s.pos).isNewlineTok = true
    · rw [if_pos h1] at h
      by_cases h2 : (peek2 t s.pos).isNewlineTok = true
      · rw [if_pos h2] at h
        simp only [Option.some.injEq, Prod.mk.injEq] at h
        obtain ⟨rfl, rfl, rfl⟩ := h
        exact ⟨hg, Walked.selfPS t s, rfl, isComment_false_of_newline _ h1,
          StOnlyComments.selfSt st⟩
      · rw [if_neg h2] at h
        obtain ⟨hgc, hwc, hsc, hlec⟩ := consume_spec t s hg
        have hstrict : s.pos < (consumePS t s).pos :=
          hsc (isEos_false_of_newline _ h1)
        by_cases h3 : (peek2 t s.pos).isCommentTok = true
        · rw [if_pos h3] at h
          obtain ⟨hgc2, hwc2, hsc2, hlec2⟩ := consume_spec t (consumePS t s) hgc
          have := ih t (addComment st (peek2 t s.pos)) (consumePS t (consumePS t s))
            tok st' s' hgc2 h
          obtain ⟨hg', hw', htok', hcom', hso'⟩ := this
          exact ⟨hg', Walked.transPS hwc (Walked.transPS hwc2 hw'), htok', hcom',
            StOnlyComments.transSt (addComment_onlyComments st _) hso'⟩
        · rw [if_neg h3] at h
          simp only [Option.some.injEq, Prod.mk.injEq] at h
          obtain ⟨rfl, rfl, rfl⟩ := h
          refine ⟨hgc, hwc, ?_, by simpa using h3, StOnlyComments.selfSt st⟩
          exact peek2_eq_peek1_consume t s
    · rw [if_neg h1] at h
      by_cases h2 : (peek1 t s.pos).isCommentTok = true
      · rw [if_pos h2] at h
        obtain ⟨hgc, hwc, hsc, hlec⟩ := consume_spec t s hg
        have := ih t (addComment st (peek1 t s.pos)) (consumePS t s) tok st' s' hgc h
        obtain ⟨hg', hw', htok', hcom', hso'⟩ := this
        exact ⟨hg', Walked.transPS hwc hw', htok', hcom',
          StOnlyComments.transSt (addComment_onlyComments st _) hso'⟩
      · rw [if_neg h2] at h
        simp only [Option.some.injEq, Prod.mk.injEq] at h
        obtain ⟨rfl, rfl, rfl⟩ := h
        exact ⟨hg, Walked.selfPS t s, rfl, by simpa using h2, StOnlyComments.selfSt st⟩

theorem cns_spec : ∀ (fuel : Nat) (t : List Char) (s : PS) (tok : Token) (s' : PS),
    goodPS t s → consumeNewlineSemicolons t s fuel = some (tok, s') →
    goodPS t s' ∧ Walked t s s' ∧ tok = peek1 t s'.pos ∧
    tok.isNewlineTok = false ∧ tok.isSemicolonTok = false := by
  intro fuel
  induction fuel with
  | zero =>
    intro t s tok s' hg h
    simp [consumeNewlineSemicolons] at h
  | succ n ih =>
    intro t s tok s' hg h
    simp only [consumeNewlineSemicolons] at h
    by_cases h1 : ((peek1 t s.pos).isNewlineTok || (peek1 t s.pos).isSemicolonTok) = true
    · rw [if_pos h1] at h
      obtain ⟨hgc, hwc, hsc, hlec⟩ := consume_spec t s hg
      have := ih t (consumePS t s) tok s' hgc h
      obtain ⟨hg', hw', htok', hn', hs'⟩ := this
      exact ⟨hg', Walked.transPS hwc hw', htok', hn', hs'⟩
    · rw [if_neg h1] at h
      simp only [Option.some.injEq, Prod.mk.injEq] at h
      obtain ⟨rfl, rfl⟩ := h
      simp only [Bool.or_eq_true] at h1
      push_neg at h1
      exact ⟨hg, Walked.selfPS t s, rfl, by simpa using h1.1, by simpa using h1.2⟩

/-! ## Expression shape predicates -/

def Token.isDotTok : Token → Bool
  | .punctuation _ _ .dot => true
  | _ => false

/-- Every `Binary` node not enclosed in a deeper `Paren` has operator
precedence at most the bound, with right children bounded by their
operator's precedence minus one (the precedence-climbing invariant). -/
def exprBinOpsBounded : Expression → Nat → Bool
  | .value _, _ => true
  | .placeholder _, _ => true
  | .paren _ _ _, _ => true
  | .binary l op r, c =>
      decide (operatorPrecedenceOf op ≤ c) && exprBinOpsBounded l c &&
        exprBinOpsBounded r (operatorPrecedenceOf op - 1)

/-- A leaf as produced by `parse_non_binary_expression`: anything but a
`Binary` node. -/
def leafLike : Expression → Bool
  | .binary _ _ _ => false
  | _ => true

/-- Left-to-right association: everywhere in the tree (including inside
parentheses), the right child of a binary node, when itself binary, binds
strictly tighter than its parent. -/
def wellAssoc : Expression → Bool
  | .value _ => true
  | .placeholder _ => true
  | .paren _ e _ => wellAssoc e
  | .binary l op r =>
      wellAssoc l && wellAssoc r &&
      (match r with
       | .binary _ op2 _ => decide (operatorPrecedenceOf op2 < operatorPrecedenceOf op)
       | _ => true)

/-- A dot-chain in the sense of the FROM-clause restriction: leaves
(values, parenthesised groups, placeholders) combined only by `.`. -/
def dotChainB : Expression → Bool
  | .value _ => true
  | .placeholder _ => true
  | .paren _ _ _ => true
  | .binary l op r => op.isDotTok && dotChainB l && dotChainB r

/-- No binary node outside a parenthesised group has a comma operator. -/
def noCommaOutsideParen : Expression → Bool
  | .value _ => true
  | .placeholder _ => true
  | .paren _ _ _ => true
  | .binary l op r => !op.isCommaTok && noCommaOutsideParen l && noCommaOutsideParen r

/-- Some binary node anywhere in the tree (including inside parentheses)
has a comma operator. -/
def exprHasCommaBinary : Expression → Bool
  | .value _ => false
  | .placeholder _ => false
  | .paren _ e _ => exprHasCommaBinary e
  | .binary l op r => op.isCommaTok || exprHasCommaBinary l || exprHasCommaBinary r

theorem opPrec_pos (tok : Token) : 1 ≤ operatorPrecedenceOf tok := by
  cases tok with
  | name a b ty =>
    cases ty <;> simp [operatorPrecedenceOf, namePrecedence, commaPrecedence]
  | punctuation a b ty =>
    cases ty <;> simp [operatorPrecedenceOf, punctuationPrecedence, commaPrecedence]
  | number a b => simp [operatorPrecedenceOf, commaPrecedence]
  | special a b ty he => simp [operatorPrecedenceOf, commaPrecedence]

theorem leafLike_bounded (e : Expression) (c : Nat) (h : leafLike e = true) :
    exprBinOpsBounded e c = true := by
  cases e <;> simp_all [leafLike, exprBinOpsBounded]

theorem isPlaceholder_shape (e : Expression) (h : e.isPlaceholderE = true) :
    ∃ s, e = .placeholder s := by
  cases e <;> simp_all [Expression.isPlaceholderE]

theorem wellAssoc_binary (acc rhs : Expression) (binop : Token)
    (ha : wellAssoc acc = true) (hr : wellAssoc rhs = true)
    (hb : exprBinOpsBounded rhs (operatorPrecedenceOf binop - 1) = true) :
    wellAssoc (.binary acc binop rhs) = true := by
  cases rhs with
  | binary l2 op2 r2 =>
    have hp := opPrec_pos binop
    simp only [exprBinOpsBounded, Bool.and_eq_true, decide_eq_true_eq] at hb
    simp only [wellAssoc, Bool.and_eq_true, decide_eq_true_eq] at ha hr ⊢
    refine ⟨⟨ha, hr⟩, ?_⟩
    omega
  | value tk => simp_all [wellAssoc]
  | paren a e c => simp_all [wellAssoc]
  | placeholder sph => simp_all [wellAssoc]

/-! ## Master invariant of the expression parser -/

def LeafOut (t : List Char) (s : PS) (st : Statement)
    (r : Expression × Statement × PS) : Prop :=
  goodPS t r.2.2 ∧ Walked t s r.2.2 ∧ StOnlyComments st r.2.1 ∧
  leafLike r.1 = true ∧ wellAssoc r.1 = true ∧
  (r.1.isPlaceholderE = false → s.pos < r.2.2.pos)

def ExprOut (t : List Char) (s : PS) (prec : Nat) (st : Statement)
    (r : Expression × Statement × PS) : Prop :=
  goodPS t r.2.2 ∧ Walked t s r.2.2 ∧ StOnlyComments st r.2.1 ∧
  exprBinOpsBounded r.1 prec = true ∧ wellAssoc r.1 = true

theorem exprMaster : ∀ (fuel : Nat) (t : List Char),
    (∀ st s r, goodPS t s → parseNonBinaryExpression t st s fuel = some r →
      LeafOut t s st r) ∧
    (∀ token st s r, goodPS t s → token = peek1 t s.pos → token.isCommentTok = false →
      pnbLoop t token st s fuel = some r → LeafOut t s st r) ∧
    (∀ prec st s r, goodPS t s → parseExpression t prec st s fuel = some r →
      ExprOut t s prec st r) ∧
    (∀ prec acc st s r, goodPS t s → parseExpressionLoop t prec acc st s fuel = some r →
      goodPS t r.2.2 ∧ Walked t s r.2.2 ∧ StOnlyComments st r.2.1 ∧
      (exprBinOpsBounded acc prec = true → wellAssoc acc = true →
        exprBinOpsBounded r.1 prec = true ∧ wellAssoc r.1 = true)) := by
  intro fuel
  induction fuel with
  | zero =>
    intro t
    refine ⟨?_, ?_, ?_, ?_⟩ <;>
      (intro _ _ _ _; intros; simp_all [parseNonBinaryExpression, pnbLoop,
        parseExpression, parseExpressionLoop])
  | succ n ih =>
    intro t
    obtain ⟨ihPnb, ihLoop, ihPe, ihPel⟩ := ih t
    have stepPnb : ∀ st s r, goodPS t s →
        parseNonBinaryExpression t st s (n+1) = some r → LeafOut t s st r := by
      intro st s r hg h
      simp only [parseNonBinaryExpression] at h
      split at h
      · simp at h
      · next token st1 s1 heq =>
        obtain ⟨hg1, hw1, htok, hcom, hso1⟩ := gnst_spec n t st s token st1 s1 hg heq
        have := ihLoop token st1 s1 r hg1 htok hcom h
        obtain ⟨hg', hw', hso', hleaf, hwa, hstrict⟩ := this
        exact ⟨hg', Walked.transPS hw1 hw', StOnlyComments.transSt hso1 hso', hleaf, hwa,
          fun hnp => lt_of_le_of_lt hw1.1 (hstrict hnp)⟩
    refine ⟨stepPnb, ?_, ?_, ?_⟩
    · -- pnbLoop
      intro token st s r hg htok hcom h
      simp only [pnbLoop] at h
      split at h
      · -- name token
        next a b ty =>
        split at h
        · -- identifier leaf
          simp only [Option.some.injEq] at h
          subst h
          obtain ⟨hgc, hwc, hsc, hlec⟩ := consume_spec t s hg
          refine ⟨hgc, hwc, StOnlyComments.selfSt st, by simp [leafLike],
            by simp [wellAssoc], fun _ => ?_⟩
          apply hsc
          rw [← htok]
          simp [Token.isEos]
        · -- keyword: raise, caught as placeholder
          simp only [Option.some.injEq] at h
          subst h
          exact ⟨hg, Walked.selfPS t s, StOnlyComments.selfSt st, by simp [leafLike],
            by simp [wellAssoc], by simp [Expression.isPlaceholderE]⟩
      · -- number token
        next a b =>
        simp only [Option.some.injEq] at h
        subst h
        obtain ⟨hgc, hwc, hsc, hlec⟩ := consume_spec t s hg
        refine ⟨hgc, hwc, StOnlyComments.selfSt st, by simp [leafLike],
          by simp [wellAssoc], fun _ => ?_⟩
        apply hsc
        rw [← htok]
        simp [Token.isEos]
      · -- punctuation token
        next a b ty =>
        split at h
        · -- left parenthesis
          next hlp =>
          obtain ⟨hgc, hwc, hsc, hlec⟩ := consume_spec t s hg
          split at h
          · simp at h
          · next inner st2 s2 hinner =>
            obtain ⟨hg2, hw2, hso2, hbnd2, hwa2⟩ :=
              ihPe commaPrecedence st (consumePS t s) (inner, st2, s2) hgc hinner
            split at h
            · simp at h
            · next token2 st3 s3 hgn =>
              obtain ⟨hg3, hw3, htk3, hcm3, hso3⟩ :=
                gnst_spec n t st2 s2 token2 st3 s3 hg2 hgn
              have hstrict0 : s.pos < (consumePS t s).pos := by
                apply hsc
                rw [← htok]
                simp [Token.isEos]
              split at h
              · -- closing parenthesis present
                simp only [Option.some.injEq] at h
                subst h
                obtain ⟨hgc3, hwc3, hsc3, hlec3⟩ := consume_spec t s3 hg3
                refine ⟨hgc3,
                  Walked.transPS hwc (Walked.transPS hw2 (Walked.transPS hw3 hwc3)),
                  StOnlyComments.transSt hso2 hso3, by simp [leafLike],
                  by simp [wellAssoc, hwa2], fun _ => ?_⟩
                calc s.pos < (consumePS t s).pos := hstrict0
                  _ ≤ s2.pos := hw2.1
                  _ ≤ s3.pos := hw3.1
                  _ ≤ (consumePS t s3).pos := hwc3.1
              · -- unclosed group
                simp only [Option.some.injEq] at h
                subst h
                refine ⟨hg3, Walked.transPS hwc (Walked.transPS hw2 hw3),
                  StOnlyComments.transSt hso2 hso3, by simp [leafLike],
                  by simp [wellAssoc, hwa2], fun _ => ?_⟩
                calc s.pos < (consumePS t s).pos := hstrict0
                  _ ≤ s2.pos := hw2.1
                  _ ≤ s3.pos := hw3.1
        · -- other punctuation: raise, caught as placeholder
          simp only [Option.some.injEq] at h
          subst h
          exact ⟨hg, Walked.selfPS t s, StOnlyComments.selfSt st, by simp [leafLike],
            by simp [wellAssoc], by simp [Expression.isPlaceholderE]⟩
      · -- special token
        next a b ty he =>
        split at h
        · -- single-quoted string
          next hq =>
          simp only [Option.some.injEq] at h
          subst h
          obtain ⟨hgc, hwc, hsc, hlec⟩ := consume_spec t s hg
          refine ⟨hgc, hwc, StOnlyComments.selfSt st, by simp [leafLike],
            by simp [wellAssoc], fun _ => ?_⟩
          apply hsc
          rw [← htok]
          subst hq
          simp [Token.isEos]
        · split at h
          · -- double-quoted string
            next hq =>
            simp only [Option.some.injEq] at h
            subst h
            obtain ⟨hgc, hwc, hsc, hlec⟩ := consume_spec t s hg
            refine ⟨hgc, hwc, StOnlyComments.selfSt st, by simp [leafLike],
              by simp [wellAssoc], fun _ => ?_⟩
            apply hsc
            rw [← htok]
            subst hq
            simp [Token.isEos]
          · split at h
            · -- single-line comment: contradicts the no-comment hypothesis
              next hq =>
              subst hq
              simp [Token.isCommentTok] at hcom
            · split at h
              · next hq =>
                subst hq
                simp [Token.isCommentTok] at hcom
              · -- end of string: raise, caught as placeholder
                simp only [Option.some.injEq] at h
                subst h
                exact ⟨hg, Walked.selfPS t s, StOnlyComments.selfSt st, by simp [leafLike],
                  by simp [wellAssoc], by simp [Expression.isPlaceholderE]⟩
    · -- parseExpression
      intro prec st s r hg h
      simp only [parseExpression] at h
      split at h
      · simp at h
      · next e st1 s1 hpnb =>
        obtain ⟨hg1, hw1, hso1, hleaf, hwa, hstrict⟩ :=
          ihPnb st s (e, st1, s1) hg hpnb
        split at h
        · simp only [Option.some.injEq] at h
          subst h
          exact ⟨hg1, hw1, hso1, leafLike_bounded e prec hleaf, hwa⟩
        · have := ihPel prec e st1 s1 r hg1 h
          obtain ⟨hg', hw', hso', himp⟩ := this
          obtain ⟨hb', hwa'⟩ := himp (leafLike_bounded e prec hleaf) hwa
          exact ⟨hg', Walked.transPS hw1 hw', StOnlyComments.transSt hso1 hso', hb', hwa'⟩
    · -- parseExpressionLoop
      intro prec acc st s r hg h
      simp only [parseExpressionLoop] at h
      split at h
      · simp at h
      · next binop st1 s1 hgn =>
        obtain ⟨hg1, hw1, htk1, hcm1, hso1⟩ := gnst_spec n t st s binop st1 s1 hg hgn
        split at h
        · -- operator-capable token
          next hnp =>
          split at h
          · -- precedence exceeds the ceiling: stop
            simp only [Option.some.injEq] at h
            subst h
            exact ⟨hg1, hw1, hso1, fun hb hw => ⟨hb, hw⟩⟩
          · next hple =>
            obtain ⟨hgc1, hwc1, hsc1, hlec1⟩ := consume_spec t s1 hg1
            split at h
            · simp at h
            · next rhs st2 s2 hrhs =>
              obtain ⟨hg2, hw2, hso2, hbnd2, hwa2⟩ :=
                ihPe (operatorPrecedenceOf binop - 1) st1 (consumePS t s1)
                  (rhs, st2, s2) hgc1 hrhs
              have hbple : operatorPrecedenceOf binop ≤ prec := by omega
              split at h
              · -- right side is a placeholder: stop climbing
                next hph =>
                simp only [Option.some.injEq] at h
                subst h
                refine ⟨hg2, Walked.transPS hw1 (Walked.transPS hwc1 hw2),
                  StOnlyComments.transSt hso1 hso2, fun hb hw => ⟨?_, ?_⟩⟩
                · simp [exprBinOpsBounded, hbple, hb, hbnd2]
                · obtain ⟨ps, rfl⟩ := isPlaceholder_shape rhs hph
                  simp [wellAssoc, hw, hwa2]
              · -- continue climbing at the same level
                next hph =>
                obtain ⟨hg', hw', hso', himp'⟩ :=
                  ihPel prec (.binary acc binop rhs) st2 s2 r hg2 h
                refine ⟨hg', Walked.transPS hw1 (Walked.transPS hwc1 (Walked.transPS hw2 hw')),
                  StOnlyComments.transSt hso1 (StOnlyComments.transSt hso2 hso'),
                  fun hb hw => ?_⟩
                apply himp'
                · simp [exprBinOpsBounded, hbple, hb, hbnd2]
                · exact wellAssoc_binary acc rhs binop hw hwa2 hbnd2
        · -- not an operator-capable token: stop
          simp only [Option.some.injEq] at h
          subst h
          exact ⟨hg1, hw1, hso1, fun hb hw => ⟨hb, hw⟩⟩

/-! ## Spec of the clause parsers -/

theorem selLoop_spec : ∀ (fuel : Nat) (t : List Char) (st : Statement) (s : PS)
    (fields : List SelectField) (st' : Statement) (s' : PS),
    goodPS t s → parseSelectLoop t st s fuel = some (fields, st', s') →
    goodPS t s' ∧ Walked t s s' ∧ StOnlyComments st st' ∧ fields ≠ [] ∧
    ∀ f ∈ fields, exprBinOpsBounded f.expression (commaPrecedence - 1) = true ∧
      wellAssoc f.expression = true := by
  intro fuel
  induction fuel with
  | zero =>
    intro t st s fields st' s' hg h
    simp [parseSelectLoop] at h
  | succ n ih =>
    intro t st s fields st' s' hg h
    simp only [parseSelectLoop] at h
    split at h
    · simp at h
    · next expression st1 s1 hpe =>
      obtain ⟨hg1, hw1, hso1, hbnd, hwa⟩ :=
        (exprMaster n t).2.2.1 (commaPrecedence - 1) st s (expression, st1, s1) hg hpe
      split at h
      · simp at h
      · next token st2 s2 hgn =>
        obtain ⟨hg2, hw2, htk2, hcm2, hso2⟩ := gnst_spec n t st1 s1 token st2 s2 hg1 hgn
        -- resolve the optional AS keyword
        by_cases hAs : token.isAsTok = true
        · rw [if_pos hAs] at h
          obtain ⟨hgc2, hwc2, hsc2, hlec2⟩ := consume_spec t s2 hg2
          split at h
          · simp at h
          · next token3 st3 s3 hgn3 =>
            obtain ⟨hg3, hw3, htk3, hcm3, hso3⟩ :=
              gnst_spec n t st2 (consumePS t s2) token3 st3 s3 hgc2 hgn3
            have hw23 : Walked t s2 s3 := Walked.transPS hwc2 hw3
            -- alias and comma handling
            split at h
            · next hAlias =>
              obtain ⟨hgc3, hwc3, hsc3, hlec3⟩ := consume_spec t s3 hg3
              split at h
              · simp at h
              · next token4 st4 s4 hgn4 =>
                obtain ⟨hg4, hw4, htk4, hcm4, hso4⟩ :=
                  gnst_spec n t st3 (consumePS t s3) token4 st4 s4 hgc3 hgn4
                split at h
                · split at h
                  · simp at h
                  · next fields5 st5 s5 hrec =>
                    obtain ⟨hgc4, hwc4, hsc4, hlec4⟩ := consume_spec t s4 hg4
                    obtain ⟨hg5, hw5, hso5, hne5, hall5⟩ :=
                      ih t st4 (consumePS t s4) fields5 st5 s5 hgc4 hrec
                    simp only [Option.some.injEq, Prod.mk.injEq] at h
                    obtain ⟨rfl, rfl, rfl⟩ := h
                    refine ⟨hg5,
                      Walked.transPS hw1 (Walked.transPS hw2 (Walked.transPS hw23
                        (Walked.transPS hwc3 (Walked.transPS hw4 (Walked.transPS hwc4 hw5))))),
                      StOnlyComments.transSt hso1 (StOnlyComments.transSt hso2
                        (StOnlyComments.transSt hso3 (StOnlyComments.transSt hso4 hso5))),
                      by simp, ?_⟩
                    intro f hf
                    simp only [List.mem_cons] at hf
                    rcases hf with rfl | hf
                    · exact ⟨hbnd, hwa⟩
                    · exact hall5 f hf
                · simp only [Option.some.injEq, Prod.mk.injEq] at h
                  obtain ⟨rfl, rfl, rfl⟩ := h
                  refine ⟨hg4,
                    Walked.transPS hw1 (Walked.transPS hw2 (Walked.transPS hw23
                      (Walked.transPS hwc3 hw4))),
                    StOnlyComments.transSt hso1 (StOnlyComments.transSt hso2
                      (StOnlyComments.transSt hso3 hso4)),
                    by simp, ?_⟩
                  intro f hf
                  simp only [List.mem_singleton] at hf
                  subst hf
                  exact ⟨hbnd, hwa⟩
            · split at h
              · split at h
                · simp at h
                · next fields4 st4 s4 hrec =>
                  obtain ⟨hgc3, hwc3, hsc3, hlec3⟩ := consume_spec t s3 hg3
                  obtain ⟨hg4, hw4, hso4, hne4, hall4⟩ :=
                    ih t st3 (consumePS t s3) fields4 st4 s4 hgc3 hrec
                  simp only [Option.some.injEq, Prod.mk.injEq] at h
                  obtain ⟨rfl, rfl, rfl⟩ := h
                  refine ⟨hg4,
                    Walked.transPS hw1 (Walked.transPS hw2 (Walked.transPS hw23
                      (Walked.transPS hwc3 hw4))),
                    StOnlyComments.transSt hso1 (StOnlyComments.transSt hso2
                      (StOnlyComments.transSt hso3 hso4)),
                    by simp, ?_⟩
                  intro f hf
                  simp only [List.mem_cons] at hf
                  rcases hf with rfl | hf
                  · exact ⟨hbnd, hwa⟩
                  · exact hall4 f hf
              · simp only [Option.some.injEq, Prod.mk.injEq] at h
                obtain ⟨rfl, rfl, rfl⟩ := h
                refine ⟨hg3, Walked.transPS hw1 (Walked.transPS hw2 hw23),
                  StOnlyComments.transSt hso1 (StOnlyComments.transSt hso2 hso3),
                  by simp, ?_⟩
                intro f hf
                simp only [List.mem_singleton] at hf
                subst hf
                exact ⟨hbnd, hwa⟩
        · rw [if_neg hAs] at h
          split at h
          · next heqn => simp at heqn
          · next token3 st3 s3 heq3 =>
            simp only [Option.some.injEq, Prod.mk.injEq] at heq3
            obtain ⟨rfl, rfl, rfl⟩ := heq3
            split at h
            · next hAlias =>
              obtain ⟨hgc2, hwc2, hsc2, hlec2⟩ := consume_spec t s2 hg2
              split at h
              · simp at h
              · next token4 st4 s4 hgn4 =>
                obtain ⟨hg4, hw4, htk4, hcm4, hso4⟩ :=
                  gnst_spec n t st2 (consumePS t s2) token4 st4 s4 hgc2 hgn4
                split at h
                · split at h
                  · simp at h
                  · next fields5 st5 s5 hrec =>
                    obtain ⟨hgc4, hwc4, hsc4, hlec4⟩ := consume_spec t s4 hg4
                    obtain ⟨hg5, hw5, hso5, hne5, hall5⟩ :=
                      ih t st4 (consumePS t s4) fields5 st5 s5 hgc4 hrec
                    simp only [Option.some.injEq, Prod.mk.injEq] at h
                    obtain ⟨rfl, rfl, rfl⟩ := h
                    refine ⟨hg5,
                      Walked.transPS hw1 (Walked.transPS hw2 (Walked.transPS hwc2
                        (Walked.transPS hw4 (Walked.transPS hwc4 hw5)))),
                      StOnlyComments.transSt hso1 (StOnlyComments.transSt hso2
                        (StOnlyComments.transSt hso4 hso5)),
                      by simp, ?_⟩
                    intro f hf
                    simp only [List.mem_cons] at hf
                    rcases hf with rfl | hf
                    · exact ⟨hbnd, hwa⟩
                    · exact hall5 f hf
                · simp only [Option.some.injEq, Prod.mk.injEq] at h
                  obtain ⟨rfl, rfl, rfl⟩ := h
                  refine ⟨hg4,
                    Walked.transPS hw1 (Walked.transPS hw2 (Walked.transPS hwc2 hw4)),
                    StOnlyComments.transSt hso1 (StOnlyComments.transSt hso2 hso4),
                    by simp, ?_⟩
                  intro f hf
                  simp only [List.mem_singleton] at hf
                  subst hf
                  exact ⟨hbnd, hwa⟩
            · split at h
              · split at h
                · simp at h
                · next fields4 st4 s4 hrec =>
                  obtain ⟨hgc2, hwc2, hsc2, hlec2⟩ := consume_spec t s2 hg2
                  obtain ⟨hg4, hw4, hso4, hne4, hall4⟩ :=
                    ih t st2 (consumePS t s2) fields4 st4 s4 hgc2 hrec
                  simp only [Option.some.injEq, Prod.mk.injEq] at h
                  obtain ⟨rfl, rfl, rfl⟩ := h
                  refine ⟨hg4,
                    Walked.transPS hw1 (Walked.transPS hw2 (Walked.transPS hwc2 hw4)),
                    StOnlyComments.transSt hso1 (StOnlyComments.transSt hso2 hso4),
                    by simp, ?_⟩
                  intro f hf
                  simp only [List.mem_cons] at hf
                  rcases hf with rfl | hf
                  · exact ⟨hbnd, hwa⟩
                  · exact hall4 f hf
              · simp only [Option.some.injEq, Prod.mk.injEq] at h
                obtain ⟨rfl, rfl, rfl⟩ := h
                refine ⟨hg2, Walked.transPS hw1 hw2,
                  StOnlyComments.transSt hso1 hso2, by simp, ?_⟩
                intro f hf
                simp only [List.mem_singleton] at hf
                subst hf
                exact ⟨hbnd, hwa⟩

theorem fromLoop_spec : ∀ (fuel : Nat) (t : List Char) (st : Statement) (s : PS)
    (fields : List FromField) (st' : Statement) (s' : PS),
    goodPS t s → parseFromLoop t st s fuel = some (fields, st', s') →
    goodPS t s' ∧ Walked t s s' ∧ StOnlyComments st st' ∧ fields ≠ [] ∧
    ∀ f ∈ fields, exprBinOpsBounded f.tableName ((punctuationPrecedence .dot).getD 0) = true ∧
      wellAssoc f.tableName = true := by
  intro fuel
  induction fuel with
  | zero =>
    intro t st s fields st' s' hg h
    simp [parseFromLoop] at h
  | succ n ih =>
    intro t st s fields st' s' hg h
    simp only [parseFromLoop] at h
    split at h
    · simp at h
    · next expression st1 s1 hpe =>
      obtain ⟨hg1, hw1, hso1, hbnd, hwa⟩ :=
        (exprMaster n t).2.2.1 ((punctuationPrecedence .dot).getD 0) st s (expression, st1, s1) hg hpe
      split at h
      · simp at h
      · next token st2 s2 hgn =>
        obtain ⟨hg2, hw2, htk2, hcm2, hso2⟩ := gnst_spec n t st1 s1 token st2 s2 hg1 hgn
        -- resolve the optional AS keyword
        by_cases hAs : token.isAsTok = true
        · rw [if_pos hAs] at h
          obtain ⟨hgc2, hwc2, hsc2, hlec2⟩ := consume_spec t s2 hg2
          split at h
          · simp at h
          · next token3 st3 s3 hgn3 =>
            obtain ⟨hg3, hw3, htk3, hcm3, hso3⟩ :=
              gnst_spec n t st2 (consumePS t s2) token3 st3 s3 hgc2 hgn3
            have hw23 : Walked t s2 s3 := Walked.transPS hwc2 hw3
            -- alias and comma handling
            split at h
            · next hAlias =>
              obtain ⟨hgc3, hwc3, hsc3, hlec3⟩ := consume_spec t s3 hg3
              split at h
              · simp at h
              · next token4 st4 s4 hgn4 =>
                obtain ⟨hg4, hw4, htk4, hcm4, hso4⟩ :=
                  gnst_spec n t st3 (consumePS t s3) token4 st4 s4 hgc3 hgn4
                split at h
                · split at h
                  · simp at h
                  · next fields5 st5 s5 hrec =>
                    obtain ⟨hgc4, hwc4, hsc4, hlec4⟩ := consume_spec t s4 hg4
                    obtain ⟨hg5, hw5, hso5, hne5, hall5⟩ :=
                      ih t st4 (consumePS t s4) fields5 st5 s5 hgc4 hrec
                    simp only [Option.some.injEq, Prod.mk.injEq] at h
                    obtain ⟨rfl, rfl, rfl⟩ := h
                    refine ⟨hg5,
                      Walked.transPS hw1 (Walked.transPS hw2 (Walked.transPS hw23
                        (Walked.transPS hwc3 (Walked.transPS hw4 (Walked.transPS hwc4 hw5))))),
                      StOnlyComments.transSt hso1 (StOnlyComments.transSt hso2
                        (StOnlyComments.transSt hso3 (StOnlyComments.transSt hso4 hso5))),
                      by simp, ?_⟩
                    intro f hf
                    simp only [List.mem_cons] at hf
                    rcases hf with rfl | hf
                    · exact ⟨hbnd, hwa⟩
                    · exact hall5 f hf
                · simp only [Option.some.injEq, Prod.mk.injEq] at h
                  obtain ⟨rfl, rfl, rfl⟩ := h
                  refine ⟨hg4,
                    Walked.transPS hw1 (Walked.transPS hw2 (Walked.transPS hw23
                      (Walked.transPS hwc3 hw4))),
                    StOnlyComments.transSt hso1 (StOnlyComments.transSt hso2
                      (StOnlyComments.transSt hso3 hso4)),
                    by simp, ?_⟩
                  intro f hf
                  simp only [List.mem_singleton] at hf
                  subst hf
                  exact ⟨hbnd, hwa⟩
            · split at h
              · split at h
                · simp at h
                · next fields4 st4 s4 hrec =>
                  obtain ⟨hgc3, hwc3, hsc3, hlec3⟩ := consume_spec t s3 hg3
                  obtain ⟨hg4, hw4, hso4, hne4, hall4⟩ :=
                    ih t st3 (consumePS t s3) fields4 st4 s4 hgc3 hrec
                  simp only [Option.some.injEq, Prod.mk.injEq] at h
                  obtain ⟨rfl, rfl, rfl⟩ := h
                  refine ⟨hg4,
                    Walked.transPS hw1 (Walked.transPS hw2 (Walked.transPS hw23
                      (Walked.transPS hwc3 hw4))),
                    StOnlyComments.transSt hso1 (StOnlyComments.transSt hso2
                      (StOnlyComments.transSt hso3 hso4)),
                    by simp, ?_⟩
                  intro f hf
                  simp only [List.mem_cons] at hf
                  rcases hf with rfl | hf
                  · exact ⟨hbnd, hwa⟩
                  · exact hall4 f hf
              · simp only [Option.some.injEq, Prod.mk.injEq] at h
                obtain ⟨rfl, rfl, rfl⟩ := h
                refine ⟨hg3, Walked.transPS hw1 (Walked.transPS hw2 hw23),
                  StOnlyComments.transSt hso1 (StOnlyComments.transSt hso2 hso3),
                  by simp, ?_⟩
                intro f hf
                simp only [List.mem_singleton] at hf
                subst hf
                exact ⟨hbnd, hwa⟩
        · rw [if_neg hAs] at h
          split at h
          · next heqn => simp at heqn
          · next token3 st3 s3 heq3 =>
            simp only [Option.some.injEq, Prod.mk.injEq] at heq3
            obtain ⟨rfl, rfl, rfl⟩ := heq3
            split at h
            · next hAlias =>
              obtain ⟨hgc2, hwc2, hsc2, hlec2⟩ := consume_spec t s2 hg2
              split at h
              · simp at h
              · next token4 st4 s4 hgn4 =>
                obtain ⟨hg4, hw4, htk4, hcm4, hso4⟩ :=
                  gnst_spec n t st2 (consumePS t s2) token4 st4 s4 hgc2 hgn4
                split at h
                · split at h
                  · simp at h
                  · next fields5 st5 s5 hrec =>
                    obtain ⟨hgc4, hwc4, hsc4, hlec4⟩ := consume_spec t s4 hg4
                    obtain ⟨hg5, hw5, hso5, hne5, hall5⟩ :=
                      ih t st4 (consumePS t s4) fields5 st5 s5 hgc4 hrec
                    simp only [Option.some.injEq, Prod.mk.injEq] at h
                    obtain ⟨rfl, rfl, rfl⟩ := h
                    refine ⟨hg5,
                      Walked.transPS hw1 (Walked.transPS hw2 (Walked.transPS hwc2
                        (Walked.transPS hw4 (Walked.transPS hwc4 hw5)))),
                      StOnlyComments.transSt hso1 (StOnlyComments.transSt hso2
                        (StOnlyComments.transSt hso4 hso5)),
                      by simp, ?_⟩
                    intro f hf
                    simp only [List.mem_cons] at hf
                    rcases hf with rfl | hf
                    · exact ⟨hbnd, hwa⟩
                    · exact hall5 f hf
                · simp only [Option.some.injEq, Prod.mk.injEq] at h
                  obtain ⟨rfl, rfl, rfl⟩ := h
                  refine ⟨hg4,
                    Walked.transPS hw1 (Walked.transPS hw2 (Walked.transPS hwc2 hw4)),
                    StOnlyComments.transSt hso1 (StOnlyComments.transSt hso2 hso4),
                    by simp, ?_⟩
                  intro f hf
                  simp only [List.mem_singleton] at hf
                  subst hf
                  exact ⟨hbnd, hwa⟩
            · split at h
              · split at h
                · simp at h
                · next fields4 st4 s4 hrec =>
                  obtain ⟨hgc2, hwc2, hsc2, hlec2⟩ := consume_spec t s2 hg2
                  obtain ⟨hg4, hw4, hso4, hne4, hall4⟩ :=
                    ih t st2 (consumePS t s2) fields4 st4 s4 hgc2 hrec
                  simp only [Option.some.injEq, Prod.mk.injEq] at h
                  obtain ⟨rfl, rfl, rfl⟩ := h
                  refine ⟨hg4,
                    Walked.transPS hw1 (Walked.transPS hw2 (Walked.transPS hwc2 hw4)),
                    StOnlyComments.transSt hso1 (StOnlyComments.transSt hso2 hso4),
                    by simp, ?_⟩
                  intro f hf
                  simp only [List.mem_cons] at hf
                  rcases hf with rfl | hf
                  · exact ⟨hbnd, hwa⟩
                  · exact hall4 f hf
              · simp only [Option.some.injEq, Prod.mk.injEq] at h
                obtain ⟨rfl, rfl, rfl⟩ := h
                refine ⟨hg2, Walked.transPS hw1 hw2,
                  StOnlyComments.transSt hso1 hso2, by simp, ?_⟩
                intro f hf
                simp only [List.mem_singleton] at hf
                subst hf
                exact ⟨hbnd, hwa⟩

/-- `SelectClause` well-formedness: at least one field, each with a
comma-free-ceiling, left-associated expression. -/
def SelectClauseOk (c : SelectClause) : Prop :=
  c.fields ≠ [] ∧ ∀ f ∈ c.fields,
    exprBinOpsBounded f.expression (commaPrecedence - 1) = true ∧
    wellAssoc f.expression = true

/-- `FromClause` well-formedness: at least one field, each with a
dot-ceiling, left-associated table expression. -/
def FromClauseOk (c : FromClause) : Prop :=
  c.fields ≠ [] ∧ ∀ f ∈ c.fields,
    exprBinOpsBounded f.tableName ((punctuationPrecedence .dot).getD 0) = true ∧
    wellAssoc f.tableName = true

/-- `WhereClause` well-formedness. -/
def WhereClauseOk (w : WhereClause) : Prop :=
  exprBinOpsBounded w.expression (commaPrecedence - 1) = true ∧
  wellAssoc w.expression = true

theorem parseSelect_spec (fuel : Nat) (t : List Char) (st : Statement) (s : PS)
    (c : SelectClause) (st' : Statement) (s' : PS) (hg : goodPS t s)
    (h : parseSelect t st s fuel = some (c, st', s')) :
    goodPS t s' ∧ Walked t s s' ∧ StOnlyComments st st' ∧ SelectClauseOk c ∧
    ((peek1 t s.pos).isEos = false → s.pos < s'.pos) := by
  match fuel with
  | 0 => simp [parseSelect] at h
  | n+1 =>
    simp only [parseSelect] at h
    obtain ⟨hgc, hwc, hsc, hlec⟩ := consume_spec t s hg
    split at h
    · simp at h
    · next fields st1 s1 hloop =>
      obtain ⟨hg1, hw1, hso1, hne1, hall1⟩ :=
        selLoop_spec n t st (consumePS t s) fields st1 s1 hgc hloop
      simp only [Option.some.injEq, Prod.mk.injEq] at h
      obtain ⟨rfl, rfl, rfl⟩ := h
      exact ⟨hg1, Walked.transPS hwc hw1, hso1, ⟨hne1, hall1⟩,
        fun he => lt_of_lt_of_le (hsc he) hw1.1⟩

theorem parseFrom_spec (fuel : Nat) (t : List Char) (st : Statement) (s : PS)
    (c : FromClause) (st' : Statement) (s' : PS) (hg : goodPS t s)
    (h : parseFrom t st s fuel = some (c, st', s')) :
    goodPS t s' ∧ Walked t s s' ∧ StOnlyComments st st' ∧ FromClauseOk c ∧
    ((peek1 t s.pos).isEos = false → s.pos < s'.pos) := by
  match fuel with
  | 0 => simp [parseFrom] at h
  | n+1 =>
    simp only [parseFrom] at h
    obtain ⟨hgc, hwc, hsc, hlec⟩ := consume_spec t s hg
    split at h
    · simp at h
    · next fields st1 s1 hloop =>
      obtain ⟨hg1, hw1, hso1, hne1, hall1⟩ :=
        fromLoop_spec n t st (consumePS t s) fields st1 s1 hgc hloop
      simp only [Option.some.injEq, Prod.mk.injEq] at h
      obtain ⟨rfl, rfl, rfl⟩ := h
      exact ⟨hg1, Walked.transPS hwc hw1, hso1, ⟨hne1, hall1⟩,
        fun he => lt_of_lt_of_le (hsc he) hw1.1⟩

theorem parseWhere_spec (fuel : Nat) (t : List Char) (st : Statement) (s : PS)
    (w : WhereClause) (st' : Statement) (s' : PS) (hg : goodPS t s)
    (h : parseWhere t st s fuel = some (w, st', s')) :
    goodPS t s' ∧ Walked t s s' ∧ StOnlyComments st st' ∧ WhereClauseOk w ∧
    ((peek1 t s.pos).isEos = false → s.pos < s'.pos) := by
  match fuel with
  | 0 => simp [parseWhere] at h
  | n+1 =>
    simp only [parseWhere] at h
    obtain ⟨hgc, hwc, hsc, hlec⟩ := consume_spec t s hg
    split at h
    · simp at h
    · next e st1 s1 hpe =>
      obtain ⟨hg1, hw1, hso1, hbnd, hwa⟩ :=
        (exprMaster n t).2.2.1 (commaPrecedence - 1) st (consumePS t s) (e, st1, s1) hgc hpe
      simp only [Option.some.injEq, Prod.mk.injEq] at h
      obtain ⟨rfl, rfl, rfl⟩ := h
      exact ⟨hg1, Walked.transPS hwc hw1, hso1, ⟨hbnd, hwa⟩,
        fun he => lt_of_lt_of_le (hsc he) hw1.1⟩

/-! ## Spec of the statement parser -/

/-- The unknown-sequence list is ordered: every span starts at or after
the given lower bound and after the previous span's end, has non-negative
length, and ends at or before the given upper bound. -/
def UnkChain : Int → List UnknownSequence → Int → Prop
  | _, [], _ => True
  | lo, u :: rest, p =>
    lo ≤ (u.start : Int) ∧ 0 ≤ u.length ∧ (u.start : Int) + u.length ≤ p ∧
    UnkChain ((u.start : Int) + u.length) rest p

theorem UnkChain.monoU : ∀ (l : List UnknownSequence) (lo p p' : Int),
    UnkChain lo l p → p ≤ p' → UnkChain lo l p' := by
  intro l
  induction l with
  | nil => intro lo p p' h hp; trivial
  | cons u rest ih =>
    intro lo p p' h hp
    obtain ⟨h1, h2, h3, h4⟩ := h
    exact ⟨h1, h2, by omega, ih _ p p' h4 hp⟩

theorem UnkChain.appendU : ∀ (l : List UnknownSequence) (lo p p' : Int)
    (u : UnknownSequence),
    UnkChain lo l p → p ≤ (u.start : Int) → 0 ≤ u.length →
    (u.start : Int) + u.length ≤ p' → lo ≤ (u.start : Int) →
    UnkChain lo (l ++ [u]) p' := by
  intro l
  induction l with
  | nil =>
    intro lo p p' u hc hp hl hb hlo
    exact ⟨hlo, hl, hb, trivial⟩
  | cons u0 rest ih =>
    intro lo p p' u hc hp hl hb hlo
    obtain ⟨h1, h2, h3, h4⟩ := hc
    refine ⟨h1, h2, by omega, ?_⟩
    exact ih _ p p' u h4 hp hl hb (by omega)

theorem UnkChain.extendLastTo : ∀ (l : List UnknownSequence) (lo p e : Int),
    UnkChain lo l p → p ≤ e → UnkChain lo (extendLast l e) e := by
  intro l
  induction l with
  | nil => intro lo p e hc hp; trivial
  | cons u0 rest ih =>
    intro lo p e hc hp
    obtain ⟨h1, h2, h3, h4⟩ := hc
    cases rest with
    | nil =>
      simp only [extendLast]
      refine ⟨?_, ?_, ?_, trivial⟩ <;> simp <;> omega
    | cons v vrest =>
      simp only [extendLast]
      exact ⟨h1, h2, by omega, ih _ p e h4 hp⟩

/-- Well-formedness of all clause lists of a statement. -/
def ClausesOk (st : Statement) : Prop :=
  (∀ c ∈ st.selects, SelectClauseOk c) ∧ (∀ c ∈ st.froms, FromClauseOk c) ∧
  (∀ w ∈ st.wheres, WhereClauseOk w)

/-- Entry condition of `parseStatementLoop`: either some token of this
statement has already been consumed (so the last consumed end is past the
statement start), or nothing has been and the statement start is the
peeked token, which is not a boundary token. -/
def HSok (t : List Char) (stmt : Statement) (s : PS) : Prop :=
  ((stmt.start : Int) ≤ s.lastEnd) ∨
  (stmt.start = (peek1 t s.pos).tstart ∧ (peek1 t s.pos).isEos = false ∧
   (peek1 t s.pos).isSemicolonTok = false ∧ (peek1 t s.pos).isNewlineTok = false)

theorem stmtLoop_spec : ∀ (fuel : Nat) (t : List Char) (prevKnown : Bool)
    (ret : Statement) (s : PS) (stmt : Statement) (s' : PS),
    goodPS t s → HSok t ret s → UnkChain ret.start ret.unknowns s.lastEnd →
    ClausesOk ret →
    parseStatementLoop t prevKnown ret s fuel = some (stmt, s') →
    goodPS t s' ∧ Walked t s s' ∧ stmt.start = ret.start ∧
    0 ≤ stmt.length ∧ (stmt.start : Int) + stmt.length ≤ (s'.pos : Int) ∧
    ClausesOk stmt ∧
    UnkChain stmt.start stmt.unknowns ((stmt.start : Int) + stmt.length) ∧
    (s'.pos = s.pos → (peek1 t s.pos).isEos = true) := by
  intro fuel
  induction fuel with
  | zero =>
    intro t prevKnown ret s stmt s' hg hhs hchain hcls h
    simp [parseStatementLoop] at h
  | succ n ih =>
    intro t prevKnown ret s stmt s' hg hhs hchain hcls h
    simp only [parseStatementLoop] at h
    split at h
    · simp at h
    · next token ret1 s1 hgn =>
      obtain ⟨hg1, hw1, htk, hcm, hso1⟩ := gnst_spec n t ret s token ret1 s1 hg hgn
      obtain ⟨hst1, hln1, hsel1, hfr1, hwh1, hun1⟩ := hso1
      have hkey : (ret.start : Int) ≤ s1.lastEnd ∨
          (s1.pos = s.pos ∧ ret.start = (peek1 t s.pos).tstart ∧
           (peek1 t s.pos).isEos = false ∧ (peek1 t s.pos).isSemicolonTok = false ∧
           (peek1 t s.pos).isNewlineTok = false) := by
        rcases hhs with hl | ⟨ha, hb, hc, hd⟩
        · left; exact le_trans hl hw1.2.1
        · rcases Nat.lt_or_ge s.pos s1.pos with hlt | hge
          · left; rw [ha]; exact hw1.2.2 hlt
          · right
            have : s1.pos = s.pos := by have := hw1.1; omega
            exact ⟨this, ha, hb, hc, hd⟩
      have hchain1 : UnkChain ret.start ret1.unknowns s1.lastEnd := by
        rw [hun1]
        exact UnkChain.monoU ret.unknowns ret.start s.lastEnd s1.lastEnd hchain hw1.2.1
      have hcls1 : ClausesOk ret1 := by
        obtain ⟨ha, hb, hc⟩ := hcls
        exact ⟨hsel1 ▸ ha, hfr1 ▸ hb, hwh1 ▸ hc⟩
      -- the common recovery argument, shared by the four recovery sites
      have hrecover : ∀ (pk : Bool),
          token.isEos = false →
          parseStatementLoop t false (recoveryStep ret1 pk token)
            (consumePS t s1) n = some (stmt, s') →
          goodPS t s' ∧ Walked t s s' ∧ stmt.start = ret.start ∧
          0 ≤ stmt.length ∧ (stmt.start : Int) + stmt.length ≤ (s'.pos : Int) ∧
          ClausesOk stmt ∧
          UnkChain stmt.start stmt.unknowns ((stmt.start : Int) + stmt.length) ∧
          s.pos < s'.pos := by
        intro pk heos hr
        obtain ⟨hgc, hwc, hsc, hlec⟩ := consume_spec t s1 hg1
        have hstrict : s1.pos < (consumePS t s1).pos := by
          apply hsc; rw [← htk]; exact heos
        have hts : s1.pos ≤ (peek1 t s1.pos).tstart := peek1_start_ge t s1.pos
        have hlec2 : (consumePS t s1).lastEnd =
            ((peek1 t s1.pos).tstart : Int) + (peek1 t s1.pos).tlen := by
          simp [consumePS, peek1]
        have hretle : (ret.start : Int) ≤ ((peek1 t s1.pos).tstart : Int) := by
          rcases hkey with hl | ⟨hpe, hst, -, -, -⟩
          · have := hg1.1
            have := hts
            omega
          · rw [hst, hpe]
        have hrs : (recoveryStep ret1 pk token).start = ret.start := by
          cases pk <;> simp [recoveryStep, hst1]
        have hrsel : (recoveryStep ret1 pk token).selects = ret1.selects := by
          cases pk <;> simp [recoveryStep]
        have hrfr : (recoveryStep ret1 pk token).froms = ret1.froms := by
          cases pk <;> simp [recoveryStep]
        have hrwh : (recoveryStep ret1 pk token).wheres = ret1.wheres := by
          cases pk <;> simp [recoveryStep]
        have hchain2 : UnkChain (recoveryStep ret1 pk token).start
            (recoveryStep ret1 pk token).unknowns (consumePS t s1).lastEnd := by
          rw [hrs]
          have hg11 := hg1.1
          cases pk with
          | true =>
            simp only [recoveryStep, if_pos]
            refine UnkChain.appendU ret1.unknowns ret.start s1.lastEnd
              (consumePS t s1).lastEnd _ hchain1 ?_ ?_ ?_ ?_
            · simp only [htk]
              omega
            · simp
            · simp only [htk, hlec2]
              omega
            · simp only [htk]
              exact hretle
          | false =>
            simp only [recoveryStep, Bool.false_eq_true, if_false, htk, hlec2]
            refine UnkChain.extendLastTo ret1.unknowns ret.start s1.lastEnd _ hchain1 ?_
            omega
        have hcls2 : ClausesOk (recoveryStep ret1 pk token) := by
          obtain ⟨ha, hb, hc⟩ := hcls1
          exact ⟨hrsel ▸ ha, hrfr ▸ hb, hrwh ▸ hc⟩
        have hhs2 : HSok t (recoveryStep ret1 pk token) (consumePS t s1) := by
          left
          rw [hrs, hlec2]
          have : ((peek1 t s1.pos).tlen : Int) ≥ 0 := by positivity
          omega
        have := ih t false (recoveryStep ret1 pk token) (consumePS t s1) stmt s'
          hgc hhs2 (hrs ▸ hchain2) hcls2 hr
        obtain ⟨hg', hw', hstart', hlen', hbnd', hcls', hchain', -⟩ := this
        refine ⟨hg', Walked.transPS hw1 (Walked.transPS hwc hw'), hstart'.trans hrs,
          hlen', hbnd', hcls', hchain', ?_⟩
        calc s.pos ≤ s1.pos := hw1.1
          _ < (consumePS t s1).pos := hstrict
          _ ≤ s'.pos := hw'.1
      -- the common boundary-exit argument for semicolon / newline / end-of-text
      have hboundary : (ret.start : Int) ≤ s1.lastEnd →
          ∀ s2 : PS, goodPS t s2 → Walked t s1 s2 →
          stmt = {ret1 with length := s1.lastEnd - ret1.start} → s' = s2 →
          goodPS t s' ∧ Walked t s s' ∧ stmt.start = ret.start ∧
          0 ≤ stmt.length ∧ (stmt.start : Int) + stmt.length ≤ (s'.pos : Int) ∧
          ClausesOk stmt ∧
          UnkChain stmt.start stmt.unknowns ((stmt.start : Int) + stmt.length) := by
        intro hble s2 hg2 hw2 hstmt hs'
        subst hstmt hs'
        have hse : ({ret1 with length := s1.lastEnd - ret1.start} : Statement).start
            = ret.start := hst1
        refine ⟨hg2, Walked.transPS hw1 hw2, hse, ?_, ?_, ?_, ?_⟩
        · simp only [hst1]
          omega
        · simp only [hst1]
          have h1 : s1.lastEnd ≤ (s1.pos : Int) := hg1.1
          have h2 := hw2.1
          have h3 : ((ret.start : Int)) + (s1.lastEnd - (ret.start : Int)) = s1.lastEnd := by
            ring
          rw [h3]
          omega
        · obtain ⟨ha, hb, hc⟩ := hcls1
          exact ⟨ha, hb, hc⟩
        · simp only [hst1]
          have : ((ret.start : Int)) + (s1.lastEnd - (ret.start : Int)) = s1.lastEnd := by ring
          rw [this]
          exact hchain1
      clear hgn
      split at h
      -- name token
      · next a b ty =>
        split at h
        · -- SELECT clause
          next hty =>
          split at h
          · simp at h
          · next c ret2 s2 hps =>
            obtain ⟨hg2, hw2, hso2, hcok, hstrictc⟩ :=
              parseSelect_spec n t ret1 s1 c ret2 s2 hg1 hps
            have hstrict : s1.pos < s2.pos := by
              apply hstrictc
              rw [← htk]
              simp [Token.isEos]
            obtain ⟨h2st, h2ln, h2sel, h2fr, h2wh, h2un⟩ := hso2
            have hretle2 : (ret.start : Int) ≤ s2.lastEnd := by
              rcases hkey with hl | ⟨hpe, hst, -, -, -⟩
              · exact le_trans hl hw2.2.1
              · rw [hst, ← hpe]
                exact hw2.2.2 hstrict
            have hnew : HSok t {ret2 with selects := ret2.selects ++ [c]} s2 := by
              left
              simp only [h2st, hst1]
              exact hretle2
            have hchain2 : UnkChain ({ret2 with selects := ret2.selects ++ [c]} : Statement).start
                ({ret2 with selects := ret2.selects ++ [c]} : Statement).unknowns s2.lastEnd := by
              simp only [h2un, h2st, hst1, hun1]
              exact UnkChain.monoU ret.unknowns ret.start s.lastEnd s2.lastEnd hchain
                (le_trans hw1.2.1 hw2.2.1)
            have hcls2 : ClausesOk {ret2 with selects := ret2.selects ++ [c]} := by
              obtain ⟨ha, hb, hc⟩ := hcls1
              refine ⟨?_, ?_, ?_⟩
              · intro cc hcc
                simp only [h2sel, List.mem_append, List.mem_singleton] at hcc
                rcases hcc with hcc | rfl
                · exact ha cc hcc
                · exact hcok
              · intro cc hcc
                simp only [h2fr] at hcc
                exact hb cc hcc
              · intro w hw
                simp only [h2wh] at hw
                exact hc w hw
            have := ih t true {ret2 with selects := ret2.selects ++ [c]} s2 stmt s'
              hg2 hnew hchain2 hcls2 h
            obtain ⟨hg', hw', hstart', hlen', hbnd', hcls', hchain', -⟩ := this
            refine ⟨hg', Walked.transPS hw1 (Walked.transPS hw2 hw'),
              by rw [hstart']; simp [h2st, hst1], hlen', hbnd', hcls', hchain',
              fun heq => absurd heq (by have := hw1.1; have := hw'.1; omega)⟩
        · split at h
          · -- FROM clause
            next hty =>
            split at h
            · simp at h
            · next c ret2 s2 hps =>
              obtain ⟨hg2, hw2, hso2, hcok, hstrictc⟩ :=
                parseFrom_spec n t ret1 s1 c ret2 s2 hg1 hps
              have hstrict : s1.pos < s2.pos := by
                apply hstrictc
                rw [← htk]
                simp [Token.isEos]
              obtain ⟨h2st, h2ln, h2sel, h2fr, h2wh, h2un⟩ := hso2
              have hretle2 : (ret.start : Int) ≤ s2.lastEnd := by
                rcases hkey with hl | ⟨hpe, hst, -, -, -⟩
                · exact le_trans hl hw2.2.1
                · rw [hst, ← hpe]
                  exact hw2.2.2 hstrict
              have hnew : HSok t {ret2 with froms := ret2.froms ++ [c]} s2 := by
                left
                simp only [h2st, hst1]
                exact hretle2
              have hchain2 : UnkChain ({ret2 with froms := ret2.froms ++ [c]} : Statement).start
                  ({ret2 with froms := ret2.froms ++ [c]} : Statement).unknowns s2.lastEnd := by
                simp only [h2un, h2st, hst1, hun1]
                exact UnkChain.monoU ret.unknowns ret.start s.lastEnd s2.lastEnd hchain
                  (le_trans hw1.2.1 hw2.2.1)
              have hcls2 : ClausesOk {ret2 with froms := ret2.froms ++ [c]} := by
                obtain ⟨ha, hb, hc⟩ := hcls1
                refine ⟨?_, ?_, ?_⟩
                · intro cc hcc
                  simp only [h2sel] at hcc
                  exact ha cc hcc
                · intro cc hcc
                  simp only [h2fr, List.mem_append, List.mem_singleton] at hcc
                  rcases hcc with hcc | rfl
                  · exact hb cc hcc
                  · exact hcok
                · intro w hw
                  simp only [h2wh] at hw
                  exact hc w hw
              have := ih t true {ret2 with froms := ret2.froms ++ [c]} s2 stmt s'
                hg2 hnew hchain2 hcls2 h
              obtain ⟨hg', hw', hstart', hlen', hbnd', hcls', hchain', -⟩ := this
              refine ⟨hg', Walked.transPS hw1 (Walked.transPS hw2 hw'),
                by rw [hstart']; simp [h2st, hst1], hlen', hbnd', hcls', hchain',
                fun heq => absurd heq (by have := hw1.1; have := hw'.1; omega)⟩
          · split at h
            · -- WHERE clause
              next hty =>
              split at h
              · simp at h
              · next c ret2 s2 hps =>
                obtain ⟨hg2, hw2, hso2, hcok, hstrictc⟩ :=
                  parseWhere_spec n t ret1 s1 c ret2 s2 hg1 hps
                have hstrict : s1.pos < s2.pos := by
                  apply hstrictc
                  rw [← htk]
                  simp [Token.isEos]
                obtain ⟨h2st, h2ln, h2sel, h2fr, h2wh, h2un⟩ := hso2
                have hretle2 : (ret.start : Int) ≤ s2.lastEnd := by
                  rcases hkey with hl | ⟨hpe, hst, -, -, -⟩
                  · exact le_trans hl hw2.2.1
                  · rw [hst, ← hpe]
                    exact hw2.2.2 hstrict
                have hnew : HSok t {ret2 with wheres := ret2.wheres ++ [c]} s2 := by
                  left
                  simp only [h2st, hst1]
                  exact hretle2
                have hchain2 : UnkChain ({ret2 with wheres := ret2.wheres ++ [c]} : Statement).start
                    ({ret2 with wheres := ret2.wheres ++ [c]} : Statement).unknowns s2.lastEnd := by
                  simp only [h2un, h2st, hst1, hun1]
                  exact UnkChain.monoU ret.unknowns ret.start s.lastEnd s2.lastEnd hchain
                    (le_trans hw1.2.1 hw2.2.1)
                have hcls2 : ClausesOk {ret2 with wheres := ret2.wheres ++ [c]} := by
                  obtain ⟨ha, hb, hc⟩ := hcls1
                  refine ⟨?_, ?_, ?_⟩
                  · intro cc hcc
                    simp only [h2sel] at hcc
                    exact ha cc hcc
                  · intro cc hcc
                    simp only [h2fr] at hcc
                    exact hb cc hcc
                  · intro w hw
                    simp only [h2wh, List.mem_append, List.mem_singleton] at hw
                    rcases hw with hw | rfl
                    · exact hc w hw
                    · exact hcok
                have := ih t true {ret2 with wheres := ret2.wheres ++ [c]} s2 stmt s'
                  hg2 hnew hchain2 hcls2 h
                obtain ⟨hg', hw', hstart', hlen', hbnd', hcls', hchain', -⟩ := this
                refine ⟨hg', Walked.transPS hw1 (Walked.transPS hw2 hw'),
                  by rw [hstart']; simp [h2st, hst1], hlen', hbnd', hcls', hchain',
                  fun heq => absurd heq (by have := hw1.1; have := hw'.1; omega)⟩
            · -- unknown name token: recovery
              have := hrecover prevKnown (by simp [Token.isEos]) h
              obtain ⟨hg', hw', hstart', hlen', hbnd', hcls', hchain', hlt⟩ := this
              exact ⟨hg', hw', hstart', hlen', hbnd', hcls', hchain',
                fun heq => absurd heq (by omega)⟩
      -- punctuation token
      · next a b ty =>
        split at h
        · -- semicolon: end of statement
          next hty =>
          obtain ⟨hgc, hwc, hsc, hlec⟩ := consume_spec t s1 hg1
          have hble : (ret.start : Int) ≤ s1.lastEnd := by
            rcases hkey with hl | ⟨hpe, -, -, hbs, -⟩
            · exact hl
            · exfalso
              have : (peek1 t s.pos).isSemicolonTok = true := by
                rw [← hpe, ← htk, hty]
                simp [Token.isSemicolonTok]
              rw [this] at hbs
              exact absurd hbs (by simp)
          simp only [Option.some.injEq, Prod.mk.injEq] at h
          obtain ⟨rfl, rfl⟩ := h
          have hmain := hboundary hble (consumePS t s1) hgc hwc (Eq.refl _) (Eq.refl _)
          obtain ⟨hg', hw', hstart', hlen', hbnd', hcls', hchain'⟩ := hmain
          refine ⟨hg', hw', hstart', hlen', hbnd', hcls', hchain', fun heq => ?_⟩
          exfalso
          have hstrict : s1.pos < (consumePS t s1).pos := by
            apply hsc; rw [← htk, hty]; simp [Token.isEos]
          have := hw1.1
          omega
        · split at h
          · -- newline: a double newline ends the statement
            next hty =>
            obtain ⟨hgc, hwc, hsc, hlec⟩ := consume_spec t s1 hg1
            obtain ⟨hgc2, hwc2, hsc2, hlec2⟩ := consume_spec t (consumePS t s1) hgc
            have hble : (ret.start : Int) ≤ s1.lastEnd := by
              rcases hkey with hl | ⟨hpe, -, -, -, hbn⟩
              · exact hl
              · exfalso
                have : (peek1 t s.pos).isNewlineTok = true := by
                  rw [← hpe, ← htk, hty]
                  simp [Token.isNewlineTok]
                rw [this] at hbn
                exact absurd hbn (by simp)
            simp only [Option.some.injEq, Prod.mk.injEq] at h
            obtain ⟨rfl, rfl⟩ := h
            have hmain := hboundary hble (consumePS t (consumePS t s1)) hgc2
              (Walked.transPS hwc hwc2) (Eq.refl _) (Eq.refl _)
            obtain ⟨hg', hw', hstart', hlen', hbnd', hcls', hchain'⟩ := hmain
            refine ⟨hg', hw', hstart', hlen', hbnd', hcls', hchain', fun heq => ?_⟩
            exfalso
            have hstrict : s1.pos < (consumePS t s1).pos := by
              apply hsc; rw [← htk, hty]; simp [Token.isEos]
            have := hw1.1
            have := hwc2.1
            omega
          · -- other punctuation: recovery
            have := hrecover prevKnown (by simp [Token.isEos]) h
            obtain ⟨hg', hw', hstart', hlen', hbnd', hcls', hchain', hlt⟩ := this
            exact ⟨hg', hw', hstart', hlen', hbnd', hcls', hchain',
              fun heq => absurd heq (by omega)⟩
      -- special token
      · next a b ty he =>
        split at h
        · -- end of text: end of statement without consuming
          next hty =>
          have hble : (ret.start : Int) ≤ s1.lastEnd := by
            rcases hkey with hl | ⟨hpe, -, hbe, -, -⟩
            · exact hl
            · exfalso
              have : (peek1 t s.pos).isEos = true := by
                rw [← hpe, ← htk, hty]
                simp [Token.isEos]
              rw [this] at hbe
              exact absurd hbe (by simp)
          simp only [Option.some.injEq, Prod.mk.injEq] at h
          obtain ⟨rfl, rfl⟩ := h
          have hmain := hboundary hble s1 hg1 (Walked.selfPS t s1) (Eq.refl _) (Eq.refl _)
          obtain ⟨hg', hw', hstart', hlen', hbnd', hcls', hchain'⟩ := hmain
          refine ⟨hg', hw', hstart', hlen', hbnd', hcls', hchain', fun heq => ?_⟩
          rw [heq] at htk
          rw [← htk, hty]
          simp [Token.isEos]
        · -- string literal at statement level: recovery
          next hty =>
          have := hrecover prevKnown (by
            cases ty <;> simp [Token.isEos] <;> simp at hty) h
          obtain ⟨hg', hw', hstart', hlen', hbnd', hcls', hchain', hlt⟩ := this
          exact ⟨hg', hw', hstart', hlen', hbnd', hcls', hchain',
            fun heq => absurd heq (by omega)⟩
      -- number token: recovery
      · next a b =>
        have := hrecover prevKnown (by simp [Token.isEos]) h
        obtain ⟨hg', hw', hstart', hlen', hbnd', hcls', hchain', hlt⟩ := this
        exact ⟨hg', hw', hstart', hlen', hbnd', hcls', hchain',
          fun heq => absurd heq (by omega)⟩

theorem parseStatement_spec (fuel : Nat) (t : List Char) (s : PS)
    (stmt : Statement) (s' : PS) (hg : goodPS t s)
    (hne : (peek1 t s.pos).isEos = false)
    (hns : (peek1 t s.pos).isSemicolonTok = false)
    (hnn : (peek1 t s.pos).isNewlineTok = false)
    (h : parseStatement t s fuel = some (stmt, s')) :
    goodPS t s' ∧ Walked t s s' ∧ s.pos < s'.pos ∧
    (s.pos : Int) ≤ (stmt.start : Int) ∧ 0 ≤ stmt.length ∧
    (stmt.start : Int) + stmt.length ≤ (s'.pos : Int) ∧
    ClausesOk stmt ∧
    UnkChain stmt.start stmt.unknowns ((stmt.start : Int) + stmt.length) := by
  match fuel with
  | 0 => simp [parseStatement] at h
  | n+1 =>
    simp only [parseStatement] at h
    have hhs : HSok t ⟨(peek1 t s.pos).tstart, ((peek1 t s.pos).tlen : Int),
        [], [], [], [], []⟩ s := by
      right
      exact ⟨Eq.refl _, hne, hns, hnn⟩
    have hchain : UnkChain (((peek1 t s.pos).tstart : Nat) : Int)
        ([] : List UnknownSequence) s.lastEnd := trivial
    have hcls : ClausesOk ⟨(peek1 t s.pos).tstart, ((peek1 t s.pos).tlen : Int),
        [], [], [], [], []⟩ := by
      refine ⟨?_, ?_, ?_⟩ <;> intro c hc <;> simp at hc
    have := stmtLoop_spec n t true _ s stmt s' hg hhs hchain hcls h
    obtain ⟨hg', hw', hstart', hlen', hbnd', hcls', hchain', hstop⟩ := this
    have hlt : s.pos < s'.pos := by
      rcases Nat.lt_or_ge s.pos s'.pos with hlt | hge
      · exact hlt
      · have heq : s'.pos = s.pos := by have := hw'.1; omega
        rw [hstop heq] at hne
        exact absurd hne (by simp)
    have hsg : s.pos ≤ (peek1 t s.pos).tstart := peek1_start_ge t s.pos
    refine ⟨hg', hw', hlt, ?_, hlen', hbnd', hcls', hchain'⟩
    rw [hstart']
    exact_mod_cast hsg

/-- The statement list is ordered: every span starts at or after the
lower bound and the previous span's end, has non-negative length, and
ends at or before the upper bound. -/
def StmtChain : Int → List Statement → Int → Prop
  | _, [], _ => True
  | lo, st :: rest, p =>
    lo ≤ (st.start : Int) ∧ 0 ≤ st.length ∧ (st.start : Int) + st.length ≤ p ∧
    StmtChain ((st.start : Int) + st.length) rest p

theorem StmtChain.monoSt : ∀ (l : List Statement) (lo p p' : Int),
    StmtChain lo l p → p ≤ p' → StmtChain lo l p' := by
  intro l
  induction l with
  | nil => intro lo p p' h hp; trivial
  | cons st rest ih =>
    intro lo p p' h hp
    obtain ⟨h1, h2, h3, h4⟩ := h
    exact ⟨h1, h2, by omega, ih _ p p' h4 hp⟩

theorem StmtChain.appendSt : ∀ (l : List Statement) (lo p p' : Int) (st : Statement),
    StmtChain lo l p → p ≤ (st.start : Int) → 0 ≤ st.length →
    (st.start : Int) + st.length ≤ p' → lo ≤ (st.start : Int) →
    StmtChain lo (l ++ [st]) p' := by
  intro l
  induction l with
  | nil =>
    intro lo p p' st hc hp hl hb hlo
    exact ⟨hlo, hl, hb, trivial⟩
  | cons st0 rest ih =>
    intro lo p p' st hc hp hl hb hlo
    obtain ⟨h1, h2, h3, h4⟩ := hc
    refine ⟨h1, h2, by omega, ?_⟩
    exact ih _ p p' st h4 hp hl hb (by omega)

/-- Everything the statement parser guarantees about one finished
statement. -/
def StmtOk (st : Statement) : Prop :=
  ClausesOk st ∧ UnkChain st.start st.unknowns ((st.start : Int) + st.length)

theorem allLoop_spec : ∀ (fuel : Nat) (t : List Char) (acc : List Statement)
    (s : PS) (stmts : List Statement) (s' : PS),
    goodPS t s → StmtChain 0 acc (s.pos : Int) → (∀ st ∈ acc, StmtOk st) →
    parseAllLoop t acc s fuel = some (stmts, s') →
    goodPS t s' ∧ StmtChain 0 stmts ((s'.pos : Int)) ∧ ∀ st ∈ stmts, StmtOk st := by
  intro fuel
  induction fuel with
  | zero =>
    intro t acc s stmts s' hg hchain hall h
    simp [parseAllLoop] at h
  | succ n ih =>
    intro t acc s stmts s' hg hchain hall h
    simp only [parseAllLoop] at h
    split at h
    · simp at h
    · next token s1 hcns =>
      obtain ⟨hg1, hw1, htk, hnn, hns⟩ := cns_spec n t s token s1 hg hcns
      split at h
      · -- end of text: stop
        simp only [Option.some.injEq, Prod.mk.injEq] at h
        obtain ⟨rfl, rfl⟩ := h
        refine ⟨hg1, ?_, hall⟩
        apply StmtChain.monoSt acc 0 (s.pos : Int) _ hchain
        exact_mod_cast hw1.1
      · next hne =>
        split at h
        · simp at h
        · next stmt s2 hps =>
          have hne' : (peek1 t s1.pos).isEos = false := by
            rw [← htk]
            revert hne
            cases token.isEos <;> simp
          obtain ⟨hg2, hw2, hlt2, hge2, hlen2, hbnd2, hcls2, hchain2⟩ :=
            parseStatement_spec n t s1 stmt s2 hg1 hne' (htk ▸ hns) (htk ▸ hnn) hps
          have hchain' : StmtChain 0 (acc ++ [stmt]) ((s2.pos : Int)) := by
            apply StmtChain.appendSt acc 0 ((s1.pos : Int)) ((s2.pos : Int)) stmt
            · apply StmtChain.monoSt acc 0 (s.pos : Int) _ hchain
              exact_mod_cast hw1.1
            · exact hge2
            · exact hlen2
            · exact hbnd2
            · positivity
          have hall' : ∀ st ∈ acc ++ [stmt], StmtOk st := by
            intro st hst
            simp only [List.mem_append, List.mem_singleton] at hst
            rcases hst with hst | rfl
            · exact hall st hst
            · exact ⟨hcls2, hchain2⟩
          exact ih t (acc ++ [stmt]) s2 stmts s' hg2 hchain' hall' h

/-! ## Fuel sufficiency (termination of the parser) -/

theorem isEos_false_of_nameOrPunct (tok : Token) (h : tok.isNameOrPunct = true) :
    tok.isEos = false := by
  cases tok <;> simp_all [Token.isNameOrPunct, Token.isEos]

theorem isEos_false_of_as (tok : Token) (h : tok.isAsTok = true) :
    tok.isEos = false := by
  cases tok <;> simp_all [Token.isAsTok, Token.isEos]

theorem isEos_false_of_aliasCapable (tok : Token) (h : tok.isAliasCapable = true) :
    tok.isEos = false := by
  cases tok with
  | special a b ty he => cases ty <;> simp_all [Token.isAliasCapable, Token.isEos]
  | name a b ty => simp [Token.isEos]
  | number a b => simp_all [Token.isAliasCapable]
  | punctuation a b ty => simp_all [Token.isAliasCapable]

theorem isEos_false_of_comma (tok : Token) (h : tok.isCommaTok = true) :
    tok.isEos = false := by
  cases tok <;> simp_all [Token.isCommaTok, Token.isEos]

theorem gnst_suff : ∀ (fuel : Nat) (t : List Char) (st : Statement) (s : PS),
    goodPS t s → 4 * (t.length - s.pos) + 1 < fuel →
    (getNextStandardToken t st s fuel).isSome = true := by
  intro fuel
  induction fuel with
  | zero => intro t st s hg hf; omega
  | succ n ih =>
    intro t st s hg hf
    simp only [getNextStandardToken]
    by_cases h1 : (peek1 t s.pos).isNewlineTok = true
    · rw [if_pos h1]
      by_cases h2 : (peek2 t s.pos).isNewlineTok = true
      · rw [if_pos h2]; simp
      · rw [if_neg h2]
        obtain ⟨hgc, hwc, hsc, hlec⟩ := consume_spec t s hg
        have hstrict := hsc (isEos_false_of_newline _ h1)
        by_cases h3 : (peek2 t s.pos).isCommentTok = true
        · rw [if_pos h3]
          obtain ⟨hgc2, hwc2, hsc2, hlec2⟩ := consume_spec t (consumePS t s) hgc
          apply ih _ _ _ hgc2
          have e1 : s.pos ≤ t.length := hg.2
          have e2 : (consumePS t s).pos ≤ t.length := hgc.2
          have e3 : (consumePS t (consumePS t s)).pos ≤ t.length := hgc2.2
          have e4 := hwc2.1
          omega
        · rw [if_neg h3]; simp
    · rw [if_neg h1]
      by_cases h2 : (peek1 t s.pos).isCommentTok = true
      · rw [if_pos h2]
        obtain ⟨hgc, hwc, hsc, hlec⟩ := consume_spec t s hg
        have hstrict := hsc (isEos_false_of_comment _ h2)
        apply ih _ _ _ hgc
        have e1 : s.pos ≤ t.length := hg.2
        have e2 : (consumePS t s).pos ≤ t.length := hgc.2
        omega
      · rw [if_neg h2]; simp

theorem cns_suff : ∀ (fuel : Nat) (t : List Char) (s : PS),
    goodPS t s → 4 * (t.length - s.pos) + 1 < fuel →
    (consumeNewlineSemicolons t s fuel).isSome = true := by
  intro fuel
  induction fuel with
  | zero => intro t s hg hf; omega
  | succ n ih =>
    intro t s hg hf
    simp only [consumeNewlineSemicolons]
    by_cases h1 : ((peek1 t s.pos).isNewlineTok || (peek1 t s.pos).isSemicolonTok) = true
    · rw [if_pos h1]
      obtain ⟨hgc, hwc, hsc, hlec⟩ := consume_spec t s hg
      have heos : (peek1 t s.pos).isEos = false := by
        simp only [Bool.or_eq_true] at h1
        rcases h1 with h1 | h1
        · exact isEos_false_of_newline _ h1
        · exact isEos_false_of_semicolon _ h1
      have hstrict := hsc heos
      apply ih _ _ hgc
      have e1 : s.pos ≤ t.length := hg.2
      have e2 : (consumePS t s).pos ≤ t.length := hgc.2
      omega
    · rw [if_neg h1]; simp

theorem exprSuff : ∀ (fuel : Nat) (t : List Char),
    (∀ st s, goodPS t s → 4 * (t.length - s.pos) + 3 < fuel →
      (parseNonBinaryExpression t st s fuel).isSome = true) ∧
    (∀ token st s, goodPS t s → token = peek1 t s.pos → token.isCommentTok = false →
      4 * (t.length - s.pos) + 2 < fuel → (pnbLoop t token st s fuel).isSome = true) ∧
    (∀ prec st s, goodPS t s → 4 * (t.length - s.pos) + 4 < fuel →
      (parseExpression t prec st s fuel).isSome = true) ∧
    (∀ prec acc st s, goodPS t s → 4 * (t.length - s.pos) + 2 < fuel →
      (parseExpressionLoop t prec acc st s fuel).isSome = true) := by
  intro fuel
  induction fuel with
  | zero =>
    intro t
    refine ⟨?_, ?_, ?_, ?_⟩ <;> (intros; omega)
  | succ n ih =>
    intro t
    obtain ⟨ihPnb, ihLoop, ihPe, ihPel⟩ := ih t
    have stepPnb : ∀ st s, goodPS t s → 4 * (t.length - s.pos) + 3 < n + 1 →
        (parseNonBinaryExpression t st s (n+1)).isSome = true := by
      intro st s hg hf
      simp only [parseNonBinaryExpression]
      have hg' := gnst_suff n t st s hg (by omega)
      obtain ⟨⟨token, st1, s1⟩, hr⟩ := Option.isSome_iff_exists.mp hg'
      simp only [hr]
      obtain ⟨hg1, hw1, htk, hcm, hso1⟩ := gnst_spec n t st s token st1 s1 hg hr
      apply ihLoop token st1 s1 hg1 htk hcm
      have e1 : s.pos ≤ t.length := hg.2
      have e2 : s1.pos ≤ t.length := hg1.2
      have e3 : s.pos ≤ s1.pos := hw1.1
      omega
    refine ⟨stepPnb, ?_, ?_, ?_⟩
    · -- pnbLoop
      intro token st s hg htk hcm hf
      have e1 : s.pos ≤ t.length := hg.2
      cases token with
      | name a b ty =>
        simp only [pnbLoop]
        split <;> simp
      | number a b => simp [pnbLoop]
      | punctuation a b ty =>
        simp only [pnbLoop]
        by_cases hlp : ty = PunctuationTokenType.leftParen
        · rw [if_pos hlp]
          obtain ⟨hgc, hwc, hsc, hlec⟩ := consume_spec t s hg
          have hstrict : s.pos < (consumePS t s).pos := by
            apply hsc; rw [← htk]; simp [Token.isEos]
          have e2 : (consumePS t s).pos ≤ t.length := hgc.2
          have hpe := ihPe commaPrecedence st (consumePS t s) hgc (by omega)
          obtain ⟨⟨inner, st2, s2⟩, hr⟩ := Option.isSome_iff_exists.mp hpe
          simp only [hr]
          obtain ⟨hg2, hw2, hso2, hbnd2, hwa2⟩ :=
            (exprMaster n t).2.2.1 commaPrecedence st (consumePS t s) (inner, st2, s2) hgc hr
          have e3 : s2.pos ≤ t.length := hg2.2
          have e4 : (consumePS t s).pos ≤ s2.pos := hw2.1
          have hgn := gnst_suff n t st2 s2 hg2 (by omega)
          obtain ⟨⟨token2, st3, s3⟩, hr2⟩ := Option.isSome_iff_exists.mp hgn
          simp only [hr2]
          split <;> simp
        · rw [if_neg hlp]; simp
      | special a b ty he =>
        simp only [pnbLoop]
        by_cases hq1 : ty = SpecialTokenType.singleQuoteString
        · rw [if_pos hq1]; simp
        · rw [if_neg hq1]
          by_cases hq2 : ty = SpecialTokenType.doubleQuoteString
          · rw [if_pos hq2]; simp
          · rw [if_neg hq2]
            by_cases hq3 : ty = SpecialTokenType.singleLineComment
            · exfalso; subst hq3; simp [Token.isCommentTok] at hcm
            · rw [if_neg hq3]
              by_cases hq4 : ty = SpecialTokenType.multiLineComment
              · exfalso; subst hq4; simp [Token.isCommentTok] at hcm
              · rw [if_neg hq4]; simp
    · -- parseExpression
      intro prec st s hg hf
      simp only [parseExpression]
      have e1 : s.pos ≤ t.length := hg.2
      have hpnb := ihPnb st s hg (by omega)
      obtain ⟨⟨e, st1, s1⟩, hr⟩ := Option.isSome_iff_exists.mp hpnb
      simp only [hr]
      obtain ⟨hg1, hw1, hso1, hleaf, hwa, hstrict⟩ :=
        (exprMaster n t).1 st s (e, st1, s1) hg hr
      by_cases hph : e.isPlaceholderE = true
      · rw [if_pos hph]; simp
      · rw [if_neg hph]
        have hlt : s.pos < s1.pos := hstrict (by revert hph; cases e.isPlaceholderE <;> simp)
        apply ihPel prec e st1 s1 hg1
        have e2 : s1.pos ≤ t.length := hg1.2
        omega
    · -- parseExpressionLoop
      intro prec acc st s hg hf
      simp only [parseExpressionLoop]
      have e1 : s.pos ≤ t.length := hg.2
      have hgn := gnst_suff n t st s hg (by omega)
      obtain ⟨⟨binop, st1, s1⟩, hr⟩ := Option.isSome_iff_exists.mp hgn
      simp only [hr]
      obtain ⟨hg1, hw1, htk, hcm, hso1⟩ := gnst_spec n t st s binop st1 s1 hg hr
      by_cases hnp : binop.isNameOrPunct = true
      · rw [if_pos hnp]
        by_cases hgt : operatorPrecedenceOf binop > prec
        · rw [if_pos hgt]; simp
        · rw [if_neg hgt]
          obtain ⟨hgc, hwc, hsc, hlec⟩ := consume_spec t s1 hg1
          have hstrict : s1.pos < (consumePS t s1).pos := by
            apply hsc
            rw [← htk]
            exact isEos_false_of_nameOrPunct binop hnp
          have e2 : s1.pos ≤ t.length := hg1.2
          have e3 : (consumePS t s1).pos ≤ t.length := hgc.2
          have e4 : s.pos ≤ s1.pos := hw1.1
          have hpe := ihPe (operatorPrecedenceOf binop - 1) st1 (consumePS t s1) hgc
            (by omega)
          obtain ⟨⟨rhs, st2, s2⟩, hr2⟩ := Option.isSome_iff_exists.mp hpe
          simp only [hr2]
          obtain ⟨hg2, hw2, hso2, hbnd2, hwa2⟩ :=
            (exprMaster n t).2.2.1 _ st1 (consumePS t s1) (rhs, st2, s2) hgc hr2
          by_cases hph : rhs.isPlaceholderE = true
          · rw [if_pos hph]; simp
          · rw [if_neg hph]
            apply ihPel prec _ st2 s2 hg2
            have e5 : s2.pos ≤ t.length := hg2.2
            have e6 : (consumePS t s1).pos ≤ s2.pos := hw2.1
            omega
      · rw [if_neg hnp]; simp

theorem selLoop_suff : ∀ (fuel : Nat) (t : List Char) (st : Statement) (s : PS),
    goodPS t s → 4 * (t.length - s.pos) + 5 < fuel →
    (parseSelectLoop t st s fuel).isSome = true := by
  intro fuel
  induction fuel with
  | zero => intro t st s hg hf; omega
  | succ n ih =>
    intro t st s hg hf
    simp only [parseSelectLoop]
    have e1 : s.pos ≤ t.length := hg.2
    have hpe := (exprSuff n t).2.2.1 (commaPrecedence - 1) st s hg (by omega)
    obtain ⟨⟨expression, st1, s1⟩, hr⟩ := Option.isSome_iff_exists.mp hpe
    simp only [hr]
    obtain ⟨hg1, hw1, hso1, hbnd1, hwa1⟩ :=
      (exprMaster n t).2.2.1 (commaPrecedence - 1) st s (expression, st1, s1) hg hr
    have e2 : s1.pos ≤ t.length := hg1.2
    have e3 : s.pos ≤ s1.pos := hw1.1
    have hgn := gnst_suff n t st1 s1 hg1 (by omega)
    obtain ⟨⟨token, st2, s2⟩, hr2⟩ := Option.isSome_iff_exists.mp hgn
    simp only [hr2]
    obtain ⟨hg2, hw2, htk2, hcm2, hso2⟩ := gnst_spec n t st1 s1 token st2 s2 hg1 hr2
    have e4 : s2.pos ≤ t.length := hg2.2
    have e5 : s1.pos ≤ s2.pos := hw2.1
    by_cases hAs : token.isAsTok = true
    · rw [if_pos hAs]
      obtain ⟨hgc2, hwc2, hsc2, hlec2⟩ := consume_spec t s2 hg2
      have e6 : (consumePS t s2).pos ≤ t.length := hgc2.2
      have e7 : s2.pos ≤ (consumePS t s2).pos := hwc2.1
      have hgn3 := gnst_suff n t st2 (consumePS t s2) hgc2 (by omega)
      obtain ⟨⟨token3, st3, s3⟩, hr3⟩ := Option.isSome_iff_exists.mp hgn3
      simp only [hr3]
      obtain ⟨hg3, hw3, htk3, hcm3, hso3⟩ :=
        gnst_spec n t st2 (consumePS t s2) token3 st3 s3 hgc2 hr3
      have e8 : s3.pos ≤ t.length := hg3.2
      have e9 : (consumePS t s2).pos ≤ s3.pos := hw3.1
      by_cases hAl : token3.isAliasCapable = true
      · rw [if_pos hAl]
        obtain ⟨hgc3, hwc3, hsc3, hlec3⟩ := consume_spec t s3 hg3
        have e10 : (consumePS t s3).pos ≤ t.length := hgc3.2
        have e11 : s3.pos ≤ (consumePS t s3).pos := hwc3.1
        have hgn4 := gnst_suff n t st3 (consumePS t s3) hgc3 (by omega)
        obtain ⟨⟨token4, st4, s4⟩, hr4⟩ := Option.isSome_iff_exists.mp hgn4
        simp only [hr4]
        obtain ⟨hg4, hw4, htk4, hcm4, hso4⟩ :=
          gnst_spec n t st3 (consumePS t s3) token4 st4 s4 hgc3 hr4
        have e12 : s4.pos ≤ t.length := hg4.2
        have e13 : (consumePS t s3).pos ≤ s4.pos := hw4.1
        by_cases hCm : token4.isCommaTok = true
        · rw [if_pos hCm]
          obtain ⟨hgc4, hwc4, hsc4, hlec4⟩ := consume_spec t s4 hg4
          have hstrict : s4.pos < (consumePS t s4).pos := by
            apply hsc4
            rw [← htk4]
            exact isEos_false_of_comma token4 hCm
          have e14 : (consumePS t s4).pos ≤ t.length := hgc4.2
          have hrec := ih t st4 (consumePS t s4) hgc4 (by omega)
          obtain ⟨⟨fields5, st5, s5⟩, hr5⟩ := Option.isSome_iff_exists.mp hrec
          simp only [hr5]
          simp
        · rw [if_neg hCm]; simp
      · rw [if_neg hAl]
        by_cases hCm : token3.isCommaTok = true
        · rw [if_pos hCm]
          obtain ⟨hgc3, hwc3, hsc3, hlec3⟩ := consume_spec t s3 hg3
          have hstrict : s3.pos < (consumePS t s3).pos := by
            apply hsc3
            rw [← htk3]
            exact isEos_false_of_comma token3 hCm
          have e10 : (consumePS t s3).pos ≤ t.length := hgc3.2
          have hrec := ih t st3 (consumePS t s3) hgc3 (by omega)
          obtain ⟨⟨fields4, st4, s4⟩, hr4⟩ := Option.isSome_iff_exists.mp hrec
          simp only [hr4]
          simp
        · rw [if_neg hCm]; simp
    · rw [if_neg hAs]
      dsimp only
      by_cases hAl : token.isAliasCapable = true
      · rw [if_pos hAl]
        obtain ⟨hgc2, hwc2, hsc2, hlec2⟩ := consume_spec t s2 hg2
        have e6 : (consumePS t s2).pos ≤ t.length := hgc2.2
        have e7 : s2.pos ≤ (consumePS t s2).pos := hwc2.1
        have hgn4 := gnst_suff n t st2 (consumePS t s2) hgc2 (by omega)
        obtain ⟨⟨token4, st4, s4⟩, hr4⟩ := Option.isSome_iff_exists.mp hgn4
        simp only [hr4]
        obtain ⟨hg4, hw4, htk4, hcm4, hso4⟩ :=
          gnst_spec n t st2 (consumePS t s2) token4 st4 s4 hgc2 hr4
        have e12 : s4.pos ≤ t.length := hg4.2
        have e13 : (consumePS t s2).pos ≤ s4.pos := hw4.1
        by_cases hCm : token4.isCommaTok = true
        · rw [if_pos hCm]
          obtain ⟨hgc4, hwc4, hsc4, hlec4⟩ := consume_spec t s4 hg4
          have hstrict : s4.pos < (consumePS t s4).pos := by
            apply hsc4
            rw [← htk4]
            exact isEos_false_of_comma token4 hCm
          have e14 : (consumePS t s4).pos ≤ t.length := hgc4.2
          have hrec := ih t st4 (consumePS t s4) hgc4 (by omega)
          obtain ⟨⟨fields5, st5, s5⟩, hr5⟩ := Option.isSome_iff_exists.mp hrec
          simp only [hr5]
          simp
        · rw [if_neg hCm]; simp
      · rw [if_neg hAl]
        by_cases hCm : token.isCommaTok = true
        · rw [if_pos hCm]
          obtain ⟨hgc2, hwc2, hsc2, hlec2⟩ := consume_spec t s2 hg2
          have hstrict : s2.pos < (consumePS t s2).pos := by
            apply hsc2
            rw [← htk2]
            exact isEos_false_of_comma token hCm
          have e6 : (consumePS t s2).pos ≤ t.length := hgc2.2
          have hrec := ih t st2 (consumePS t s2) hgc2 (by omega)
          obtain ⟨⟨fields4, st4, s4⟩, hr4⟩ := Option.isSome_iff_exists.mp hrec
          simp only [hr4]
          simp
        · rw [if_neg hCm]; simp

theorem fromLoop_suff : ∀ (fuel : Nat) (t : List Char) (st : Statement) (s : PS),
    goodPS t s → 4 * (t.length - s.pos) + 5 < fuel →
    (parseFromLoop t st s fuel).isSome = true := by
  intro fuel
  induction fuel with
  | zero => intro t st s hg hf; omega
  | succ n ih =>
    intro t st s hg hf
    simp only [parseFromLoop]
    have e1 : s.pos ≤ t.length := hg.2
    have hpe := (exprSuff n t).2.2.1 ((punctuationPrecedence .dot).getD 0) st s hg (by omega)
    obtain ⟨⟨expression, st1, s1⟩, hr⟩ := Option.isSome_iff_exists.mp hpe
    simp only [hr]
    obtain ⟨hg1, hw1, hso1, hbnd1, hwa1⟩ :=
      (exprMaster n t).2.2.1 ((punctuationPrecedence .dot).getD 0) st s (expression, st1, s1) hg hr
    have e2 : s1.pos ≤ t.length := hg1.2
    have e3 : s.pos ≤ s1.pos := hw1.1
    have hgn := gnst_suff n t st1 s1 hg1 (by omega)
    obtain ⟨⟨token, st2, s2⟩, hr2⟩ := Option.isSome_iff_exists.mp hgn
    simp only [hr2]
    obtain ⟨hg2, hw2, htk2, hcm2, hso2⟩ := gnst_spec n t st1 s1 token st2 s2 hg1 hr2
    have e4 : s2.pos ≤ t.length := hg2.2
    have e5 : s1.pos ≤ s2.pos := hw2.1
    by_cases hAs : token.isAsTok = true
    · rw [if_pos hAs]
      obtain ⟨hgc2, hwc2, hsc2, hlec2⟩ := consume_spec t s2 hg2
      have e6 : (consumePS t s2).pos ≤ t.length := hgc2.2
      have e7 : s2.pos ≤ (consumePS t s2).pos := hwc2.1
      have hgn3 := gnst_suff n t st2 (consumePS t s2) hgc2 (by omega)
      obtain ⟨⟨token3, st3, s3⟩, hr3⟩ := Option.isSome_iff_exists.mp hgn3
      simp only [hr3]
      obtain ⟨hg3, hw3, htk3, hcm3, hso3⟩ :=
        gnst_spec n t st2 (consumePS t s2) token3 st3 s3 hgc2 hr3
      have e8 : s3.pos ≤ t.length := hg3.2
      have e9 : (consumePS t s2).pos ≤ s3.pos := hw3.1
      by_cases hAl : token3.isAliasCapable = true
      · rw [if_pos hAl]
        obtain ⟨hgc3, hwc3, hsc3, hlec3⟩ := consume_spec t s3 hg3
        have e10 : (consumePS t s3).pos ≤ t.length := hgc3.2
        have e11 : s3.pos ≤ (consumePS t s3).pos := hwc3.1
        have hgn4 := gnst_suff n t st3 (consumePS t s3) hgc3 (by omega)
        obtain ⟨⟨token4, st4, s4⟩, hr4⟩ := Option.isSome_iff_exists.mp hgn4
        simp only [hr4]
        obtain ⟨hg4, hw4, htk4, hcm4, hso4⟩ :=
          gnst_spec n t st3 (consumePS t s3) token4 st4 s4 hgc3 hr4
        have e12 : s4.pos ≤ t.length := hg4.2
        have e13 : (consumePS t s3).pos ≤ s4.pos := hw4.1
        by_cases hCm : token4.isCommaTok = true
        · rw [if_pos hCm]
          obtain ⟨hgc4, hwc4, hsc4, hlec4⟩ := consume_spec t s4 hg4
          have hstrict : s4.pos < (consumePS t s4).pos := by
            apply hsc4
            rw [← htk4]
            exact isEos_false_of_comma token4 hCm
          have e14 : (consumePS t s4).pos ≤ t.length := hgc4.2
          have hrec := ih t st4 (consumePS t s4) hgc4 (by omega)
          obtain ⟨⟨fields5, st5, s5⟩, hr5⟩ := Option.isSome_iff_exists.mp hrec
          simp only [hr5]
          simp
        · rw [if_neg hCm]; simp
      · rw [if_neg hAl]
        by_cases hCm : token3.isCommaTok = true
        · rw [if_pos hCm]
          obtain ⟨hgc3, hwc3, hsc3, hlec3⟩ := consume_spec t s3 hg3
          have hstrict : s3.pos < (consumePS t s3).pos := by
            apply hsc3
            rw [← htk3]
            exact isEos_false_of_comma token3 hCm
          have e10 : (consumePS t s3).pos ≤ t.length := hgc3.2
          have hrec := ih t st3 (consumePS t s3) hgc3 (by omega)
          obtain ⟨⟨fields4, st4, s4⟩, hr4⟩ := Option.isSome_iff_exists.mp hrec
          simp only [hr4]
          simp
        · rw [if_neg hCm]; simp
    · rw [if_neg hAs]
      dsimp only
      by_cases hAl : token.isAliasCapable = true
      · rw [if_pos hAl]
        obtain ⟨hgc2, hwc2, hsc2, hlec2⟩ := consume_spec t s2 hg2
        have e6 : (consumePS t s2).pos ≤ t.length := hgc2.2
        have e7 : s2.pos ≤ (consumePS t s2).pos := hwc2.1
        have hgn4 := gnst_suff n t st2 (consumePS t s2) hgc2 (by omega)
        obtain ⟨⟨token4, st4, s4⟩, hr4⟩ := Option.isSome_iff_exists.mp hgn4
        simp only [hr4]
        obtain ⟨hg4, hw4, htk4, hcm4, hso4⟩ :=
          gnst_spec n t st2 (consumePS t s2) token4 st4 s4 hgc2 hr4
        have e12 : s4.pos ≤ t.length := hg4.2
        have e13 : (consumePS t s2).pos ≤ s4.pos := hw4.1
        by_cases hCm : token4.isCommaTok = true
        · rw [if_pos hCm]
          obtain ⟨hgc4, hwc4, hsc4, hlec4⟩ := consume_spec t s4 hg4
          have hstrict : s4.pos < (consumePS t s4).pos := by
            apply hsc4
            rw [← htk4]
            exact isEos_false_of_comma token4 hCm
          have e14 : (consumePS t s4).pos ≤ t.length := hgc4.2
          have hrec := ih t st4 (consumePS t s4) hgc4 (by omega)
          obtain ⟨⟨fields5, st5, s5⟩, hr5⟩ := Option.isSome_iff_exists.mp hrec
          simp only [hr5]
          simp
        · rw [if_neg hCm]; simp
      · rw [if_neg hAl]
        by_cases hCm : token.isCommaTok = true
        · rw [if_pos hCm]
          obtain ⟨hgc2, hwc2, hsc2, hlec2⟩ := consume_spec t s2 hg2
          have hstrict : s2.pos < (consumePS t s2).pos := by
            apply hsc2
            rw [← htk2]
            exact isEos_false_of_comma token hCm
          have e6 : (consumePS t s2).pos ≤ t.length := hgc2.2
          have hrec := ih t st2 (consumePS t s2) hgc2 (by omega)
          obtain ⟨⟨fields4, st4, s4⟩, hr4⟩ := Option.isSome_iff_exists.mp hrec
          simp only [hr4]
          simp
        · rw [if_neg hCm]; simp

theorem parseSelect_suff (fuel : Nat) (t : List Char) (st : Statement) (s : PS)
    (hg : goodPS t s) (hf : 4 * (t.length - s.pos) + 6 < fuel) :
    (parseSelect t st s fuel).isSome = true := by
  match fuel with
  | 0 => omega
  | n+1 =>
    simp only [parseSelect]
    obtain ⟨hgc, hwc, hsc, hlec⟩ := consume_spec t s hg
    have e1 : s.pos ≤ t.length := hg.2
    have e2 : (consumePS t s).pos ≤ t.length := hgc.2
    have e3 : s.pos ≤ (consumePS t s).pos := hwc.1
    have hrec := selLoop_suff n t st (consumePS t s) hgc (by omega)
    obtain ⟨⟨fields, st1, s1⟩, hr⟩ := Option.isSome_iff_exists.mp hrec
    simp only [hr]
    simp

theorem parseFrom_suff (fuel : Nat) (t : List Char) (st : Statement) (s : PS)
    (hg : goodPS t s) (hf : 4 * (t.length - s.pos) + 6 < fuel) :
    (parseFrom t st s fuel).isSome = true := by
  match fuel with
  | 0 => omega
  | n+1 =>
    simp only [parseFrom]
    obtain ⟨hgc, hwc, hsc, hlec⟩ := consume_spec t s hg
    have e1 : s.pos ≤ t.length := hg.2
    have e2 : (consumePS t s).pos ≤ t.length := hgc.2
    have e3 : s.pos ≤ (consumePS t s).pos := hwc.1
    have hrec := fromLoop_suff n t st (consumePS t s) hgc (by omega)
    obtain ⟨⟨fields, st1, s1⟩, hr⟩ := Option.isSome_iff_exists.mp hrec
    simp only [hr]
    simp

theorem parseWhere_suff (fuel : Nat) (t : List Char) (st : Statement) (s : PS)
    (hg : goodPS t s) (hf : 4 * (t.length - s.pos) + 6 < fuel) :
    (parseWhere t st s fuel).isSome = true := by
  match fuel with
  | 0 => omega
  | n+1 =>
    simp only [parseWhere]
    obtain ⟨hgc, hwc, hsc, hlec⟩ := consume_spec t s hg
    have e1 : s.pos ≤ t.length := hg.2
    have e2 : (consumePS t s).pos ≤ t.length := hgc.2
    have e3 : s.pos ≤ (consumePS t s).pos := hwc.1
    have hrec := (exprSuff n t).2.2.1 (commaPrecedence - 1) st (consumePS t s) hgc (by omega)
    obtain ⟨⟨e, st1, s1⟩, hr⟩ := Option.isSome_iff_exists.mp hrec
    simp only [hr]
    simp

theorem stmtLoop_suff : ∀ (fuel : Nat) (t : List Char) (prevKnown : Bool)
    (ret : Statement) (s : PS),
    goodPS t s → 4 * (t.length - s.pos) + 8 < fuel →
    (parseStatementLoop t prevKnown ret s fuel).isSome = true := by
  intro fuel
  induction fuel with
  | zero => intro t prevKnown ret s hg hf; omega
  | succ n ih =>
    intro t prevKnown ret s hg hf
    simp only [parseStatementLoop]
    have e1 : s.pos ≤ t.length := hg.2
    have hgn := gnst_suff n t ret s hg (by omega)
    obtain ⟨⟨token, ret1, s1⟩, hr⟩ := Option.isSome_iff_exists.mp hgn
    simp only [hr]
    obtain ⟨hg1, hw1, htk, hcm, hso1⟩ := gnst_spec n t ret s token ret1 s1 hg hr
    have e2 : s1.pos ≤ t.length := hg1.2
    have e3 : s.pos ≤ s1.pos := hw1.1
    have hrecstep : ∀ (tk : Token), tk = token → token.isEos = false →
        (parseStatementLoop t false (recoveryStep ret1 prevKnown token)
          (consumePS t s1) n).isSome = true := by
      intro tk htkeq heos
      obtain ⟨hgc, hwc, hsc, hlec⟩ := consume_spec t s1 hg1
      have hstrict : s1.pos < (consumePS t s1).pos := by
        apply hsc; rw [← htk]; exact heos
      have e4 : (consumePS t s1).pos ≤ t.length := hgc.2
      exact ih t false (recoveryStep ret1 prevKnown token) (consumePS t s1) hgc (by omega)
    cases token with
    | name a b ty =>
      dsimp only
      by_cases h1 : ty = NameTokenType.select
      · rw [if_pos h1]
        have hps := parseSelect_suff n t ret1 s1 hg1 (by omega)
        obtain ⟨⟨c, ret2, s2⟩, hr2⟩ := Option.isSome_iff_exists.mp hps
        simp only [hr2]
        obtain ⟨hg2, hw2, hso2, hcok, hstrictc⟩ := parseSelect_spec n t ret1 s1 c ret2 s2 hg1 hr2
        have hstrict : s1.pos < s2.pos := by
          apply hstrictc; rw [← htk]; simp [Token.isEos]
        have e4 : s2.pos ≤ t.length := hg2.2
        exact ih t true _ s2 hg2 (by omega)
      · rw [if_neg h1]
        by_cases h2 : ty = NameTokenType.from_
        · rw [if_pos h2]
          have hps := parseFrom_suff n t ret1 s1 hg1 (by omega)
          obtain ⟨⟨c, ret2, s2⟩, hr2⟩ := Option.isSome_iff_exists.mp hps
          simp only [hr2]
          obtain ⟨hg2, hw2, hso2, hcok, hstrictc⟩ := parseFrom_spec n t ret1 s1 c ret2 s2 hg1 hr2
          have hstrict : s1.pos < s2.pos := by
            apply hstrictc; rw [← htk]; simp [Token.isEos]
          have e4 : s2.pos ≤ t.length := hg2.2
          exact ih t true _ s2 hg2 (by omega)
        · rw [if_neg h2]
          by_cases h3 : ty = NameTokenType.where_
          · rw [if_pos h3]
            have hps := parseWhere_suff n t ret1 s1 hg1 (by omega)
            obtain ⟨⟨c, ret2, s2⟩, hr2⟩ := Option.isSome_iff_exists.mp hps
            simp only [hr2]
            obtain ⟨hg2, hw2, hso2, hcok, hstrictc⟩ :=
              parseWhere_spec n t ret1 s1 c ret2 s2 hg1 hr2
            have hstrict : s1.pos < s2.pos := by
              apply hstrictc; rw [← htk]; simp [Token.isEos]
            have e4 : s2.pos ≤ t.length := hg2.2
            exact ih t true _ s2 hg2 (by omega)
          · rw [if_neg h3]
            exact hrecstep _ (Eq.refl _) (by simp [Token.isEos])
    | punctuation a b ty =>
      dsimp only
      by_cases h1 : ty = PunctuationTokenType.semicolon
      · rw [if_pos h1]; simp
      · rw [if_neg h1]
        by_cases h2 : ty = PunctuationTokenType.newline
        · rw [if_pos h2]; simp
        · rw [if_neg h2]
          exact hrecstep _ (Eq.refl _) (by simp [Token.isEos])
    | special a b ty he =>
      dsimp only
      by_cases h1 : ty = SpecialTokenType.endOfString
      · rw [if_pos h1]; simp
      · rw [if_neg h1]
        exact hrecstep _ (Eq.refl _) (by cases ty <;> simp_all [Token.isEos])
    | number a b =>
      exact hrecstep _ (Eq.refl _) (by simp [Token.isEos])

theorem parseStatement_suff (fuel : Nat) (t : List Char) (s : PS)
    (hg : goodPS t s) (hf : 4 * (t.length - s.pos) + 9 < fuel) :
    (parseStatement t s fuel).isSome = true := by
  match fuel with
  | 0 => omega
  | n+1 =>
    simp only [parseStatement]
    exact stmtLoop_suff n t true _ s hg (by omega)

theorem allLoop_suff : ∀ (fuel : Nat) (t : List Char) (acc : List Statement) (s : PS),
    goodPS t s → 4 * (t.length - s.pos) + 11 < fuel →
    (parseAllLoop t acc s fuel).isSome = true := by
  intro fuel
  induction fuel with
  | zero => intro t acc s hg hf; omega
  | succ n ih =>
    intro t acc s hg hf
    simp only [parseAllLoop]
    have e1 : s.pos ≤ t.length := hg.2
    have hcns := cns_suff n t s hg (by omega)
    obtain ⟨⟨token, s1⟩, hr⟩ := Option.isSome_iff_exists.mp hcns
    simp only [hr]
    obtain ⟨hg1, hw1, htk, hnn, hns⟩ := cns_spec n t s token s1 hg hr
    have e2 : s1.pos ≤ t.length := hg1.2
    have e3 : s.pos ≤ s1.pos := hw1.1
    by_cases heos : token.isEos = true
    · rw [if_pos heos]; simp
    · rw [if_neg heos]
      have hne' : (peek1 t s1.pos).isEos = false := by
        rw [← htk]
        revert heos
        cases token.isEos <;> simp
      have hps := parseStatement_suff n t s1 hg1 (by omega)
      obtain ⟨⟨stmt, s2⟩, hr2⟩ := Option.isSome_iff_exists.mp hps
      simp only [hr2]
      obtain ⟨hg2, hw2, hlt2, hge2, hlen2, hbnd2, hcls2, hchain2⟩ :=
        parseStatement_spec n t s1 stmt s2 hg1 hne' (htk ▸ hns) (htk ▸ hnn) hr2
      have e4 : s2.pos ≤ t.length := hg2.2
      exact ih t (acc ++ [stmt]) s2 hg2 (by omega)

/-- Totality of the parser: the fuel chosen by `parseAll` always suffices. -/
theorem parseAll_isSome (t : List Char) : (parseAll t).isSome = true := by
  unfold parseAll
  have hg0 : goodPS t (⟨0, -1⟩ : PS) := by
    constructor
    · simp
    · simp
  have := allLoop_suff (parseFuel t) t [] ⟨0, -1⟩ hg0 (by
    show 4 * (t.length - 0) + 11 < parseFuel t
    unfold parseFuel
    omega)
  obtain ⟨⟨stmts, s'⟩, hr⟩ := Option.isSome_iff_exists.mp this
  simp only [hr]
  simp

/-! ## Bridging lemmas towards the claim-level statements -/

theorem isComma_opPrec (tok : Token) (h : tok.isCommaTok = true) :
    operatorPrecedenceOf tok = commaPrecedence := by
  cases tok with
  | name a b ty => simp [Token.isCommaTok] at h
  | number a b => simp [Token.isCommaTok] at h
  | punctuation a b ty =>
    cases ty <;>
      simp_all [Token.isCommaTok, operatorPrecedenceOf, punctuationPrecedence,
        commaPrecedence]
  | special a b ty he => simp [Token.isCommaTok] at h

theorem opPrec_le_one_isDot (tok : Token) (h : operatorPrecedenceOf tok ≤ 1) :
    tok.isDotTok = true := by
  cases tok with
  | name a b ty =>
    cases ty <;>
      simp_all [operatorPrecedenceOf, namePrecedence, commaPrecedence, Token.isDotTok]
  | number a b => simp_all [operatorPrecedenceOf, commaPrecedence]
  | punctuation a b ty =>
    cases ty <;>
      simp_all [operatorPrecedenceOf, punctuationPrecedence, commaPrecedence,
        Token.isDotTok]
  | special a b ty he => simp_all [operatorPrecedenceOf, commaPrecedence]

theorem dotChainB_of_bounded_le_one : ∀ (e : Expression) (c : Nat), c ≤ 1 →
    exprBinOpsBounded e c = true → dotChainB e = true := by
  intro e
  induction e with
  | value tk => intro c hc h; simp [dotChainB]
  | placeholder sp => intro c hc h; simp [dotChainB]
  | paren lp inner rp ih => intro c hc h; simp [dotChainB]
  | binary l op r ihl ihr =>
    intro c hc h
    simp only [exprBinOpsBounded, Bool.and_eq_true, decide_eq_true_eq] at h
    obtain ⟨⟨hop, hl⟩, hr⟩ := h
    simp only [dotChainB, Bool.and_eq_true]
    exact ⟨⟨opPrec_le_one_isDot op (by omega), ihl c hc hl⟩,
      ihr _ (by omega) hr⟩

theorem dotChainB_of_bounded (e : Expression)
    (h : exprBinOpsBounded e ((punctuationPrecedence .dot).getD 0) = true) :
    dotChainB e = true := by
  have h1 : (punctuationPrecedence PunctuationTokenType.dot).getD 0 = 1 := rfl
  rw [h1] at h
  exact dotChainB_of_bounded_le_one e 1 (le_refl 1) h

theorem noComma_of_bounded : ∀ (e : Expression) (c : Nat), c < commaPrecedence →
    exprBinOpsBounded e c = true → noCommaOutsideParen e = true := by
  intro e
  induction e with
  | value tk => intro c hc h; simp [noCommaOutsideParen]
  | placeholder sp => intro c hc h; simp [noCommaOutsideParen]
  | paren lp inner rp ih => intro c hc h; simp [noCommaOutsideParen]
  | binary l op r ihl ihr =>
    intro c hc h
    simp only [exprBinOpsBounded, Bool.and_eq_true, decide_eq_true_eq] at h
    obtain ⟨⟨hop, hl⟩, hr⟩ := h
    have hnc : op.isCommaTok = false := by
      cases hcc : op.isCommaTok
      · rfl
      · have := isComma_opPrec op hcc
        omega
    have hpos := opPrec_pos op
    simp only [noCommaOutsideParen, hnc, Bool.not_false, Bool.and_eq_true,
      Bool.true_and]
    exact ⟨ihl c hc hl, ihr _ (by omega) hr⟩

theorem stmtChain_elem : ∀ (l : List Statement) (lo p : Int),
    StmtChain lo l p → ∀ st ∈ l,
      0 ≤ st.length ∧ (st.start : Int) + st.length ≤ p := by
  intro l
  induction l with
  | nil => intro lo p h st hst; simp at hst
  | cons u rest ih =>
    intro lo p h st hst
    obtain ⟨h1, h2, h3, h4⟩ := h
    rcases List.mem_cons.mp hst with rfl | hst
    · exact ⟨h2, h3⟩
    · exact ih _ p h4 st hst

theorem stmtChain_ordered : ∀ (l : List Statement) (lo p : Int),
    StmtChain lo l p →
    List.Chain' (fun a b => (a.start : Int) + a.length ≤ (b.start : Int)) l := by
  intro l
  induction l with
  | nil => intro lo p h; simp
  | cons u rest ih =>
    intro lo p h
    obtain ⟨h1, h2, h3, h4⟩ := h
    cases rest with
    | nil => simp
    | cons v vrest =>
      rw [List.chain'_cons]
      exact ⟨h4.1, ih _ p h4⟩

theorem unkChain_elem : ∀ (l : List UnknownSequence) (lo p : Int),
    UnkChain lo l p → ∀ u ∈ l,
      lo ≤ (u.start : Int) ∧ 0 ≤ u.length ∧ (u.start : Int) + u.length ≤ p := by
  intro l
  induction l with
  | nil => intro lo p h u hu; simp at hu
  | cons u0 rest ih =>
    intro lo p h u hu
    obtain ⟨h1, h2, h3, h4⟩ := h
    rcases List.mem_cons.mp hu with rfl | hu
    · exact ⟨h1, h2, h3⟩
    · have := ih _ p h4 u hu
      exact ⟨by omega, this.2⟩

theorem unkChain_ordered : ∀ (l : List UnknownSequence) (lo p : Int),
    UnkChain lo l p →
    List.Chain' (fun a b => (a.start : Int) + a.length ≤ (b.start : Int)) l := by
  intro l
  induction l with
  | nil => intro lo p h; simp
  | cons u rest ih =>
    intro lo p h
    obtain ⟨h1, h2, h3, h4⟩ := h
    cases rest with
    | nil => simp
    | cons v vrest =>
      rw [List.chain'_cons]
      exact ⟨h4.1, ih _ p h4⟩

theorem parseAll_spec (t : List Char) (stmts : List Statement)
    (h : parseAll t = some stmts) :
    StmtChain 0 stmts (t.length : Int) ∧ ∀ st ∈ stmts, StmtOk st := by
  unfold parseAll at h
  cases hall : parseAllLoop t [] ⟨0, -1⟩ (parseFuel t) with
  | none => rw [hall] at h; simp at h
  | some r =>
    obtain ⟨stmts0, s'⟩ := r
    rw [hall] at h
    simp only [Option.some.injEq] at h
    subst h
    have hg0 : goodPS t (⟨0, -1⟩ : PS) := by
      constructor
      · simp
      · simp
    have hinit : ∀ st ∈ ([] : List Statement), StmtOk st := by
      intro st hst
      simp at hst
    obtain ⟨hg', hchain, hok⟩ :=
      allLoop_spec (parseFuel t) t [] ⟨0, -1⟩ stmts0 s' hg0 trivial hinit hall
    refine ⟨StmtChain.monoSt stmts0 0 _ _ hchain ?_, hok⟩
    exact_mod_cast hg'.2

/-! ## The claims -/

/-- Claim C1: `parseAll` is total — on every input text, including empty
text, all-whitespace text and arbitrary garbage, it returns `some` finite
list of statements (so every anomaly is reported only as data inside the
returned tree and no internal recovery failure escapes), and every
returned statement's span has non-negative length and lies within the
bounds of the text. -/
theorem c1_parseAll_total (t : List Char) :
    (parseAll t).isSome = true ∧
    ∀ stmts, parseAll t = some stmts → ∀ st ∈ stmts,
      0 ≤ st.length ∧ (st.start : Int) + st.length ≤ (t.length : Int) := by
  refine ⟨parseAll_isSome t, ?_⟩
  intro stmts h st hst
  obtain ⟨hchain, hok⟩ := parseAll_spec t stmts h
  exact stmtChain_elem stmts 0 _ hchain st hst

/-- Witness for C1 at the text `select 1 @@@ 2`. -/
theorem c1_witness :
    (parseAll (strT "select 1 @@@ 2")).isSome = true ∧
    (0 ≤ (14 : Int) ∧
      ((0 : Nat) : Int) + (14 : Int) ≤ ((strT "select 1 @@@ 2").length : Int)) := by
  have h := c1_parseAll_total (strT "select 1 @@@ 2")
  refine ⟨h.1, ?_⟩
  have h2 := h.2 [⟨0, 14, [⟨[⟨.value (.number 7 1), none⟩]⟩], [], [], [],
      [⟨9, 5, .punctuation 9 3 .unknownOperator⟩]⟩] (by decide)
    ⟨0, 14, [⟨[⟨.value (.number 7 1), none⟩]⟩], [], [], [],
      [⟨9, 5, .punctuation 9 3 .unknownOperator⟩]⟩ (by decide)
  exact h2

/-- Claim C2: `a + b * c` parses to `Binary(a, +, Binary(b, *, c))`,
`a * b + c` to `Binary(Binary(a, *, b), +, c)` and `a < b and c < d` to
`Binary(Binary(a, <, b), and, Binary(c, <, d))` (each at the clause-level
ceiling `commaPrecedence - 1`), and in general every expression returned
by `parseExpression` associates operators of equal precedence
left-to-right (`wellAssoc`), because each recursive call absorbs only
strictly tighter operators. -/
theorem c2_precedence_left_assoc (t : List Char) (prec : Nat) (st : Statement)
    (s : PS) (fuel : Nat) (e : Expression) (st' : Statement) (s' : PS)
    (hg : goodPS t s) (h : parseExpression t prec st s fuel = some (e, st', s')) :
    wellAssoc e = true ∧
    ((parseExpression (strT "a + b * c") (commaPrecedence - 1)
        ⟨0, 0, [], [], [], [], []⟩ ⟨0, -1⟩ 60).map (fun r => r.1) =
      some (.binary (.value (.name 0 1 .nonKeyword)) (.punctuation 2 1 .plus)
        (.binary (.value (.name 4 1 .nonKeyword)) (.punctuation 6 1 .multiply)
          (.value (.name 8 1 .nonKeyword))))) ∧
    ((parseExpression (strT "a * b + c") (commaPrecedence - 1)
        ⟨0, 0, [], [], [], [], []⟩ ⟨0, -1⟩ 60).map (fun r => r.1) =
      some (.binary
        (.binary (.value (.name 0 1 .nonKeyword)) (.punctuation 2 1 .multiply)
          (.value (.name 4 1 .nonKeyword)))
        (.punctuation 6 1 .plus) (.value (.name 8 1 .nonKeyword)))) ∧
    ((parseExpression (strT "a < b and c < d") (commaPrecedence - 1)
        ⟨0, 0, [], [], [], [], []⟩ ⟨0, -1⟩ 80).map (fun r => r.1) =
      some (.binary
        (.binary (.value (.name 0 1 .nonKeyword)) (.punctuation 2 1 .lessThan)
          (.value (.name 4 1 .nonKeyword)))
        (.name 6 3 .and_)
        (.binary (.value (.name 10 1 .nonKeyword)) (.punctuation 12 1 .lessThan)
          (.value (.name 14 1 .nonKeyword))))) := by
  refine ⟨?_, by decide, by decide, by decide⟩
  exact ((exprMaster fuel t).2.2.1 prec st s (e, st', s') hg h).2.2.2.2

/-- Witness for C2 at the text `a + b * c`. -/
theorem c2_witness :
    wellAssoc (.binary (.value (.name 0 1 .nonKeyword)) (.punctuation 2 1 .plus)
      (.binary (.value (.name 4 1 .nonKeyword)) (.punctuation 6 1 .multiply)
        (.value (.name 8 1 .nonKeyword)))) = true := by
  have h := c2_precedence_left_assoc (strT "a + b * c") (commaPrecedence - 1)
    ⟨0, 0, [], [], [], [], []⟩ ⟨0, -1⟩ 60
    (.binary (.value (.name 0 1 .nonKeyword)) (.punctuation 2 1 .plus)
      (.binary (.value (.name 4 1 .nonKeyword)) (.punctuation 6 1 .multiply)
        (.value (.name 8 1 .nonKeyword))))
    ⟨0, 0, [], [], [], [], []⟩ ⟨9, 9⟩ ⟨by decide, by decide⟩ (by decide)
  exact h.1

/-- Counterexample to C3 as stated: parsing `select (1,2)` yields a
`Binary` node whose operator is a comma — inside the parentheses the
ceiling is `commaPrecedence` itself and the climb test is strict, so
`parseExpression` does consume the comma there. -/
theorem c3_counterexample :
    (parseAll (strT "select (1,2)")).map (fun stmts => stmts.any fun st =>
      st.selects.any fun c => c.fields.any fun f =>
        exprHasCommaBinary f.expression) = some true := by
  decide

/-- Claim C3 (amended): commas are never consumed by `parseExpression` at
the clause-level ceiling `commaPrecedence - 1`, so no `Binary` node
outside a parenthesised group has a comma operator anywhere in any
statement returned by `parseAll`; only inside parentheses (where the
ceiling is raised to `commaPrecedence`) can a comma `Binary` appear. -/
theorem c3_no_comma_outside_parens (t : List Char) (stmts : List Statement)
    (h : parseAll t = some stmts) :
    ∀ st ∈ stmts,
      (∀ c ∈ st.selects, ∀ f ∈ c.fields,
        noCommaOutsideParen f.expression = true) ∧
      (∀ c ∈ st.froms, ∀ f ∈ c.fields,
        noCommaOutsideParen f.tableName = true) ∧
      (∀ w ∈ st.wheres, noCommaOutsideParen w.expression = true) := by
  intro st hst
  obtain ⟨hchain, hok⟩ := parseAll_spec t stmts h
  obtain ⟨⟨hsel, hfrom, hwhere⟩, hunk⟩ := hok st hst
  refine ⟨?_, ?_, ?_⟩
  · intro c hc f hf
    exact noComma_of_bounded f.expression (commaPrecedence - 1) (by decide)
      ((hsel c hc).2 f hf).1
  · intro c hc f hf
    exact noComma_of_bounded f.tableName _ (by decide) ((hfrom c hc).2 f hf).1
  · intro w hw
    exact noComma_of_bounded w.expression (commaPrecedence - 1) (by decide)
      (hwhere w hw).1

/-- Witness for the amended C3 at the text `select (1,2)` (the comma
`Binary` sits inside the parenthesised group, which the predicate
excludes). -/
theorem c3_witness :
    noCommaOutsideParen (.paren (.punctuation 7 1 .leftParen)
      (.binary (.value (.number 8 1)) (.punctuation 9 1 .comma)
        (.value (.number 10 1)))
      (some (.punctuation 11 1 .rightParen))) = true := by
  have h := c3_no_comma_outside_parens (strT "select (1,2)")
    [⟨0, 12, [⟨[⟨.paren (.punctuation 7 1 .leftParen)
        (.binary (.value (.number 8 1)) (.punctuation 9 1 .comma)
          (.value (.number 10 1)))
        (some (.punctuation 11 1 .rightParen)), none⟩]⟩], [], [], [], []⟩]
    (by decide)
  have h2 := (h ⟨0, 12, [⟨[⟨.paren (.punctuation 7 1 .leftParen)
      (.binary (.value (.number 8 1)) (.punctuation 9 1 .comma)
        (.value (.number 10 1)))
      (some (.punctuation 11 1 .rightParen)), none⟩]⟩], [], [], [], []⟩
    (by decide)).1
    ⟨[⟨.paren (.punctuation 7 1 .leftParen)
      (.binary (.value (.number 8 1)) (.punctuation 9 1 .comma)
        (.value (.number 10 1)))
      (some (.punctuation 11 1 .rightParen)), none⟩]⟩ (by decide)
    ⟨.paren (.punctuation 7 1 .leftParen)
      (.binary (.value (.number 8 1)) (.punctuation 9 1 .comma)
        (.value (.number 10 1)))
      (some (.punctuation 11 1 .rightParen)), none⟩ (by decide)
  exact h2

/-- Claim C4 (refuted by the scanner, recorded as a code bug): the
punctuation mapping does define the kinds of `-` (Minus) and `~` (BitNot),
but the scanner's operator-character class spells the range `*-+` instead
of a literal `-` and omits `~` entirely, so the one-character inputs `-`
and `~` lex as UnknownOperator instead of their mapped kinds; operators
whose characters the class does cover (`<=`, `::`, `+`) resolve to their
mapped kinds as claimed. -/
theorem c4_minus_tilde_lex_unknown :
    textToPunctuationToken (strT "-") = PunctuationTokenType.minus ∧
    textToPunctuationToken (strT "~") = PunctuationTokenType.bitNot ∧
    (searchNext (strT "-") 0).1 = Token.punctuation 0 1 .unknownOperator ∧
    (searchNext (strT "~") 0).1 = Token.punctuation 0 1 .unknownOperator ∧
    (searchNext (strT "<=") 0).1 = Token.punctuation 0 2 .lessThanOrEqual ∧
    (searchNext (strT "::") 0).1 = Token.punctuation 0 2 .doubleColon ∧
    (searchNext (strT "+") 0).1 = Token.punctuation 0 1 .plus := by
  decide

/-- Claim C5: `parseAll "select 1 @@@ 2"` returns one statement whose
`unknowns` holds exactly one `UnknownSequence` covering the unrecognized
run and whose `selects` keeps the parsed `select 1` field; consecutive
unrecognized tokens coalesce into one sequence even across an interleaved
comment (`"@@ --x\n@@"` yields a single sequence spanning both runs), a
recognized token in between starts a new sequence on the next failure
(`"@@ select a @@"` yields two sequences), and in general the unknown
sequences of every statement have non-negative lengths, lie within the
statement's span and are ordered without overlap. -/
theorem c5_recovery_coalescing (t : List Char) (stmts : List Statement)
    (h : parseAll t = some stmts) :
    (parseAll (strT "select 1 @@@ 2") = some [⟨0, 14,
        [⟨[⟨.value (.number 7 1), none⟩]⟩], [], [], [],
        [⟨9, 5, .punctuation 9 3 .unknownOperator⟩]⟩]) ∧
    (parseAll (strT "@@ --x\n@@") = some [⟨0, 9, [], [], [],
        [.special 3 3 .singleLineComment true],
        [⟨0, 9, .punctuation 0 2 .unknownOperator⟩]⟩]) ∧
    (parseAll (strT "@@ select a @@") = some [⟨0, 14,
        [⟨[⟨.value (.name 10 1 .nonKeyword), none⟩]⟩], [], [], [],
        [⟨0, 2, .punctuation 0 2 .unknownOperator⟩,
         ⟨12, 2, .punctuation 12 2 .unknownOperator⟩]⟩]) ∧
    ∀ st ∈ stmts,
      (∀ u ∈ st.unknowns, (st.start : Int) ≤ (u.start : Int) ∧ 0 ≤ u.length ∧
        (u.start : Int) + u.length ≤ (st.start : Int) + st.length) ∧
      List.Chain' (fun a b => (a.start : Int) + a.length ≤ (b.start : Int))
        st.unknowns := by
  refine ⟨by decide, by decide, by decide, ?_⟩
  intro st hst
  obtain ⟨hchain, hok⟩ := parseAll_spec t stmts h
  obtain ⟨hcls, hunk⟩ := hok st hst
  refine ⟨?_, unkChain_ordered _ _ _ hunk⟩
  intro u hu
  exact unkChain_elem _ _ _ hunk u hu

/-- Witness for C5 at the text `select 1 @@@ 2`. -/
theorem c5_witness :
    List.Chain' (fun a b => (a.start : Int) + a.length ≤ (b.start : Int))
      ([⟨9, 5, .punctuation 9 3 .unknownOperator⟩] : List UnknownSequence) := by
  have h := c5_recovery_coalescing (strT "select 1 @@@ 2")
    [⟨0, 14, [⟨[⟨.value (.number 7 1), none⟩]⟩], [], [], [],
      [⟨9, 5, .punctuation 9 3 .unknownOperator⟩]⟩] (by decide)
  have h2 := (h.2.2.2 ⟨0, 14, [⟨[⟨.value (.number 7 1), none⟩]⟩], [], [], [],
      [⟨9, 5, .punctuation 9 3 .unknownOperator⟩]⟩ (by decide)).2
  exact h2

/-- Claim C6: statements are delimited by a semicolon, two consecutive
newline tokens, or end of text, with leading newlines and semicolons
skipped: the double-newline and semicolon inputs yield two statements,
the empty input yields none, and a single newline does not split — the
statement instead carries two SELECT clauses of one field each. -/
theorem c6_statement_boundaries :
    (parseAll (strT "select a\n\nselect b")).map List.length = some 2 ∧
    (parseAll (strT "select a; select b;")).map List.length = some 2 ∧
    parseAll (strT "") = some [] ∧
    parseAll (strT "select a\nselect b") = some [⟨0, 17,
      [⟨[⟨.value (.name 7 1 .nonKeyword), none⟩]⟩,
       ⟨[⟨.value (.name 16 1 .nonKeyword), none⟩]⟩], [], [], [], []⟩] := by
  refine ⟨by decide, by decide, by decide, by decide⟩

/-- Claim C7: lossless lexing — for every input text, concatenating in
source order the whitespace gap the scanner skips before each token and
the text each token spans (up to and including the gap before the
end-of-text token) reconstructs the text exactly, and every skipped
character is whitespace; the scanner itself is total, so every character
belongs to a token or is whitespace-skipped. -/
theorem c7_lossless_lexing (t : List Char) :
    (((lexChunks t 0).map fun ch => ch.1 ++ ch.2).flatten = t) ∧
    ∀ ch ∈ lexChunks t 0, ∀ c ∈ ch.1, isSkipChar c = true := by
  constructor
  · have h := lexChunksF_join t (t.length + 1 - 0) 0 (le_refl _)
    simpa [lexChunks] using h
  · intro ch hch c hc
    exact lexChunksF_gaps_white t _ 0 ch hch c hc

/-- Witness for C7 at the text `select a`. -/
theorem c7_witness :
    ((((lexChunks (strT "select a") 0).map fun ch => ch.1 ++ ch.2).flatten
      = strT "select a") ∧ isSkipChar ' ' = true) := by
  have h := c7_lossless_lexing (strT "select a")
  exact ⟨h.1, h.2 ([' '], strT "a") (by decide) ' ' (by decide)⟩

/-- Claim C8: every `FromField.tableName` in every statement returned by
`parseAll` is a dot-chain — the FROM clause parses its table expression
with the ceiling set to exactly the dot operator's precedence, so leaves
are combined only by `.` operators and no other operator kind is accepted
at the top level of a table name. -/
theorem c8_from_tables_dot_chains (t : List Char) (stmts : List Statement)
    (h : parseAll t = some stmts) :
    ∀ st ∈ stmts, ∀ fc ∈ st.froms, ∀ f ∈ fc.fields,
      dotChainB f.tableName = true := by
  intro st hst fc hfc f hf
  obtain ⟨hchain, hok⟩ := parseAll_spec t stmts h
  obtain ⟨⟨hsel, hfrom, hwhere⟩, hunk⟩ := hok st hst
  exact dotChainB_of_bounded f.tableName ((hfrom fc hfc).2 f hf).1

/-- Witness for C8 at the text `from s.t`. -/
theorem c8_witness :
    dotChainB (.binary (.value (.name 5 1 .nonKeyword))
      (.punctuation 6 1 .dot) (.value (.name 7 1 .nonKeyword))) = true := by
  have h := c8_from_tables_dot_chains (strT "from s.t")
    [⟨0, 8, [], [⟨[⟨.binary (.value (.name 5 1 .nonKeyword))
        (.punctuation 6 1 .dot) (.value (.name 7 1 .nonKeyword)), none⟩]⟩],
      [], [], []⟩] (by decide)
  have h2 := h ⟨0, 8, [], [⟨[⟨.binary (.value (.name 5 1 .nonKeyword))
      (.punctuation 6 1 .dot) (.value (.name 7 1 .nonKeyword)), none⟩]⟩],
      [], [], []⟩ (by decide)
    ⟨[⟨.binary (.value (.name 5 1 .nonKeyword))
      (.punctuation 6 1 .dot) (.value (.name 7 1 .nonKeyword)), none⟩]⟩
    (by decide)
    ⟨.binary (.value (.name 5 1 .nonKeyword))
      (.punctuation 6 1 .dot) (.value (.name 7 1 .nonKeyword)), none⟩
    (by decide)
  exact h2

/-- Claim C9: every statement returned by `parseAll` has a span of
non-negative length lying within the text's bounds, and the statement
spans appear in source order without overlap: each span starts at or
after the end of the previous one. -/
theorem c9_statement_spans_ordered (t : List Char) (stmts : List Statement)
    (h : parseAll t = some stmts) :
    (∀ st ∈ stmts, 0 ≤ st.length ∧
      (st.start : Int) + st.length ≤ (t.length : Int)) ∧
    List.Chain' (fun a b => (a.start : Int) + a.length ≤ (b.start : Int))
      stmts := by
  obtain ⟨hchain, hok⟩ := parseAll_spec t stmts h
  exact ⟨stmtChain_elem stmts 0 _ hchain, stmtChain_ordered stmts 0 _ hchain⟩

/-- Witness for C9 at the text `select a; select b;`. -/
theorem c9_witness :
    List.Chain' (fun a b => (a.start : Int) + a.length ≤ (b.start : Int))
      ([⟨0, 8, [⟨[⟨.value (.name 7 1 .nonKeyword), none⟩]⟩], [], [], [], []⟩,
        ⟨10, 8, [⟨[⟨.value (.name 17 1 .nonKeyword), none⟩]⟩], [], [], [], []⟩]
       : List Statement) := by
  have h := c9_statement_spans_ordered (strT "select a; select b;")
    [⟨0, 8, [⟨[⟨.value (.name 7 1 .nonKeyword), none⟩]⟩], [], [], [], []⟩,
     ⟨10, 8, [⟨[⟨.value (.name 17 1 .nonKeyword), none⟩]⟩], [], [], [], []⟩]
    (by decide)
  exact h.2

/-- Claim C10: every SELECT and FROM clause of every statement returned
by `parseAll` has a non-empty fields list — each clause-loop iteration
appends a field even when no expression leaf could be parsed, in which
case the field's expression is a placeholder, as `parseAll "select"`
shows concretely. -/
theorem c10_clauses_nonempty_fields (t : List Char) (stmts : List Statement)
    (h : parseAll t = some stmts) :
    (parseAll (strT "select") = some [⟨0, 6,
        [⟨[⟨.placeholder "1", none⟩]⟩], [], [], [], []⟩]) ∧
    ∀ st ∈ stmts, (∀ c ∈ st.selects, c.fields ≠ []) ∧
      (∀ c ∈ st.froms, c.fields ≠ []) := by
  refine ⟨by decide, ?_⟩
  intro st hst
  obtain ⟨hchain, hok⟩ := parseAll_spec t stmts h
  obtain ⟨⟨hsel, hfrom, hwhere⟩, hunk⟩ := hok st hst
  exact ⟨fun c hc => (hsel c hc).1, fun c hc => (hfrom c hc).1⟩

/-- Witness for C10 at the text `select x`. -/
theorem c10_witness :
    ([⟨.value (.name 7 1 .nonKeyword), none⟩] : List SelectField) ≠ [] := by
  have h := c10_clauses_nonempty_fields (strT "select x")
    [⟨0, 8, [⟨[⟨.value (.name 7 1 .nonKeyword), none⟩]⟩], [], [], [], []⟩]
    (by decide)
  have h2 := (h.2 ⟨0, 8, [⟨[⟨.value (.name 7 1 .nonKeyword), none⟩]⟩],
      [], [], [], []⟩ (by decide)).1
    ⟨[⟨.value (.name 7 1 .nonKeyword), none⟩]⟩ (by decide)
  exact h2
